import Mathlib

/-!
Verification of the plutarch arc decision engine (`src/plutarch/arc/engine.py`)
against its natural-language specification.

The engine is pure Python over dictionaries and lists.  We embed it shallowly:

* Python `dict` becomes an association list `List (String × β)` with
  first-match lookup `alook` (Python dict keys are unique, so first match
  equals the unique match); dict construction sites that can overwrite keys
  (`{s.item_id: s for s in stash}`, `reverse.setdefault(...)`) get dedicated
  insert functions `dictSet` / `dictAppend` with Python's
  replace-value-keep-position semantics.
* Python `int` becomes `Int` (arbitrary precision, may be negative: the
  engine performs no validation).
* The two places where Python runs unbounded recursion or a work-list loop
  (`build_deep_recycle_table._resolve` and the BFS in `find_recycle_sources`)
  take an explicit fuel argument and return `none` when fuel runs out, so
  divergence of the Python original is modelled as `none` for every fuel.

Field sets on the data model keep exactly the fields the engine reads
(`engine.py` imports them from `models.py`; the remaining catalog fields are
carried through unread, per spec §3, and are omitted here).
-/

/-- `models.Item`, restricted to the fields the engine consumes:
`id`, `name` (locale → display string), `value`, `recycles_into`. -/
structure Item where
  id : String
  name : List (String × String)
  value : Int
  recycles_into : List (String × Int)
deriving Repr, DecidableEq

/-- `models.ItemQuantity`. -/
structure ItemQuantity where
  item_id : String
  quantity : Int
deriving Repr, DecidableEq

/-- `models.Quest`, restricted to the fields the engine consumes. -/
structure Quest where
  id : String
  objectives : List (List (String × String))
  reward_item_ids : List ItemQuantity
  granted_item_ids : List ItemQuantity
deriving Repr, DecidableEq

/-- `models.StashItem`. -/
structure StashItem where
  item_id : String
  name : String
  quantity : Int
  slot_index : Int
deriving Repr, DecidableEq

/-- `models.OptimizeParams`. -/
structure OptimizeParams where
  quest_aware : Bool := true
  min_profit_threshold : Int := 0
  include_hideout : Bool := false
  include_projects : Bool := false
deriving Repr, DecidableEq

/-- `models.Recommendation`. -/
structure Recommendation where
  item_id : String
  name : String
  quantity : Int
  sell_value : Int
  recycle_value : Int
  margin : Int
  action : String
deriving Repr, DecidableEq

/-- `models.OptimizeResult`. -/
structure OptimizeResult where
  sell : List Recommendation
  recycle : List Recommendation
  hold : List Recommendation
  total_sell_value : Int
  total_recycle_value : Int
  total_hold_count : Nat
deriving Repr, DecidableEq

/-- `models.RecycleSource`. -/
structure RecycleSource where
  item_id : String
  name : String
  quantity : Int
  yield_per_unit : Int
  total_yield : Int
  depth : Nat
  chain : List String
deriving Repr, DecidableEq

/-- The item catalog `dict[str, Item]`. -/
abbrev Catalog := List (String × Item)

/-- The deep-recycle table `dict[str, int]`. -/
abbrev Table := List (String × Int)

/-- Python `d.get(key)` / `d[key]` on a dict with unique keys: first-match
association-list lookup. -/
def alook {β : Type} : List (String × β) → String → Option β
  | [], _ => none
  | (k, v) :: rest, key => if k = key then some v else alook rest key

/-- Python `d.get(key, dflt)` for `LocalizedString` dictionaries. -/
def nameGet (m : List (String × String)) (key dflt : String) : String :=
  (alook m key).getD dflt

/-- Python `d[key] = v` on a dict: replace the value in place if the key is
present (keeping its position), else append the new binding. -/
def dictSet {β : Type} : List (String × β) → String → β → List (String × β)
  | [], key, v => [(key, v)]
  | (k, w) :: rest, key, v =>
    if k = key then (k, v) :: rest else (k, w) :: dictSet rest key v

/-- Python `d.setdefault(key, []).append(v)`. -/
def dictAppend {β : Type} : List (String × List β) → String → β → List (String × List β)
  | [], key, v => [(key, [v])]
  | (k, l) :: rest, key, v =>
    if k = key then (k, l ++ [v]) :: rest else (k, l) :: dictAppend rest key v

/-- Python `s.lower()` (per-character lowercasing suffices for the engine). -/
def lowerStr (s : String) : String := String.mk (s.data.map Char.toLower)

/-- Python `s.strip()`. -/
def stripStr (s : String) : String :=
  String.mk (((s.data.dropWhile Char.isWhitespace).reverse.dropWhile Char.isWhitespace).reverse)

/-- Insert `x` into an already-sorted list, after every element `y` with
`le y x`.  Building a sort from this by a left fold reproduces Python's
stable `list.sort(key=...)`: later elements land after earlier equal ones. -/
def pyInsert {α : Type} (le : α → α → Bool) (x : α) : List α → List α
  | [] => [x]
  | y :: ys => if le y x then y :: pyInsert le x ys else x :: y :: ys

/-- Python `l.sort(key=...)`: a stable sort with respect to the (total,
transitive) boolean key comparison `le`.  Python's timsort is stable, so its
output list is exactly this insertion sort's output. -/
def pySort {α : Type} (le : α → α → Bool) (l : List α) : List α :=
  l.foldl (fun acc x => pyInsert le x acc) []

/-- Whether `needle` matches at the head of `hay`. -/
def leadMatch : List Char → List Char → Bool
  | [], _ => true
  | _ :: _, [] => false
  | a :: as, b :: bs => a = b && leadMatch as bs

/-- Python `needle in hay` on strings: contiguous-substring test (the empty
needle is found in every string). -/
def strHas (needle : List Char) : List Char → Bool
  | [] => leadMatch needle []
  | b :: bs => leadMatch needle (b :: bs) || strHas needle bs

/-! ## `build_deep_recycle_table` (engine.py lines 22-70)

Python's inner `_resolve` recurses without bound when `recycles_into`
references form a cycle (the memo entry is written only *after* the recursive
calls return).  The embedding threads the memo table explicitly and spends one
unit of fuel per nested `_resolve` call; `none` models the Python
`RecursionError` / divergence. -/

/-- The `for mat_id, mat_qty in item.recycles_into.items()` loop body of
`_resolve`: skip materials missing from the catalog, otherwise resolve the
material and add `max(mat.value, mat_deep) * mat_qty` to the running total. -/
def resolveMats (items : Catalog) (resolve : String → Table → Option (Int × Table)) :
    List (String × Int) → Int → Table → Option (Int × Table)
  | [], total, tb => some (total, tb)
  | (mid, mq) :: rest, total, tb =>
    match alook items mid with
    | none => resolveMats items resolve rest total tb
    | some mat =>
      match resolve mid tb with
      | none => none
      | some (md, tb2) => resolveMats items resolve rest (total + max mat.value md * mq) tb2

/-- `build_deep_recycle_table._resolve`, as a state-passing function on the
memo table, fuelled by recursion depth. -/
def resolveF (items : Catalog) : Nat → String → Table → Option (Int × Table)
  | 0, _, _ => none
  | fuel + 1, id, tb =>
    match alook tb id with
    | some v => some (v, tb)
    | none =>
      match alook items id with
      | none => some (0, tb ++ [(id, 0)])
      | some item =>
        match item.recycles_into with
        | [] => some (0, tb ++ [(id, 0)])
        | _ :: _ =>
          match resolveMats items (resolveF items fuel) item.recycles_into 0 tb with
          | none => none
          | some (total, tb2) => some (total, tb2 ++ [(id, total)])

/-- The `for item_id in items: _resolve(item_id)` driver loop. -/
def buildLoop (items : Catalog) (fuel : Nat) : List String → Table → Option Table
  | [], tb => some tb
  | id :: rest, tb =>
    match resolveF items fuel id tb with
    | none => none
    | some (_, tb2) => buildLoop items fuel rest tb2

/-- `engine.build_deep_recycle_table`.  `fuel` bounds the recursion depth of
each top-level `_resolve` call; the Python original has no such bound and
diverges exactly when this returns `none` for every fuel. -/
def build_deep_recycle_table (items : Catalog) (fuel : Nat) : Option Table :=
  buildLoop items fuel (items.map Prod.fst) []

/-! ## `_build_recommendation` and the classifiers (engine.py lines 73-193) -/

/-- `engine._build_recommendation`. -/
def build_recommendation (stash_item : StashItem) (item : Item) (recycle_table : Table)
    (action : String) : Recommendation :=
  let sell_value := item.value * stash_item.quantity
  let recycle_value := (alook recycle_table stash_item.item_id).getD 0 * stash_item.quantity
  { item_id := stash_item.item_id
    name := nameGet item.name "en" stash_item.name
    quantity := stash_item.quantity
    sell_value := sell_value
    recycle_value := recycle_value
    margin := sell_value - recycle_value
    action := action }

/-- `engine.analyze_sell`: the loop is a `filterMap`, then the
`recommendations.sort(key=sell_value, reverse=True)`. -/
def analyze_sell (stash : List StashItem) (items : Catalog) (recycle_table : Table) :
    List Recommendation :=
  let recommendations := stash.filterMap (fun stash_item =>
    match alook items stash_item.item_id with
    | none => none
    | some item =>
      if item.value = 0 then none
      else
        let sell_value := item.value * stash_item.quantity
        let recycle_value := (alook recycle_table stash_item.item_id).getD 0 * stash_item.quantity
        if sell_value > recycle_value then
          some (build_recommendation stash_item item recycle_table "sell")
        else none)
  pySort (fun a b => b.sell_value ≤ a.sell_value) recommendations

/-- `engine.analyze_recycle`: the loop is a `filterMap`, then the
`recommendations.sort(key=margin)`. -/
def analyze_recycle (stash : List StashItem) (items : Catalog) (recycle_table : Table) :
    List Recommendation :=
  let recommendations := stash.filterMap (fun stash_item =>
    match alook items stash_item.item_id with
    | none => none
    | some item =>
      match item.recycles_into with
      | [] => none
      | _ :: _ =>
        let sell_value := item.value * stash_item.quantity
        let recycle_value := (alook recycle_table stash_item.item_id).getD 0 * stash_item.quantity
        if recycle_value > sell_value then
          some (build_recommendation stash_item item recycle_table "recycle")
        else none)
  pySort (fun a b => a.margin ≤ b.margin) recommendations

/-! ## `_build_quest_hold_set` (engine.py lines 196-229)

Python accumulates into a `set`; we accumulate into a list and only ever
reason about membership, so duplicates are irrelevant. -/

/-- `engine._build_quest_hold_set`. -/
def build_quest_hold_set (quests : List (String × Quest)) (items : Catalog) : List String :=
  quests.foldl (fun hold_set qp =>
    let hs1 := hold_set ++ qp.2.granted_item_ids.map (fun iq => iq.item_id)
    let hs2 := hs1 ++ qp.2.reward_item_ids.map (fun iq => iq.item_id)
    qp.2.objectives.foldl (fun hs obj =>
      let objective_text := lowerStr (nameGet obj "en" "")
      hs ++ items.filterMap (fun ip =>
        let item_name := lowerStr (nameGet ip.2.name "en" "")
        if item_name.data ≠ [] ∧ strHas item_name.data objective_text.data = true
        then some ip.1 else none)) hs2) []

/-! ## `analyze_optimize` (engine.py lines 232-319) -/

/-- The mutable loop state of `analyze_optimize`. -/
structure OptAcc where
  sell_recs : List Recommendation
  recycle_recs : List Recommendation
  hold_recs : List Recommendation
  total_sell_value : Int
  total_recycle_value : Int
deriving Repr, DecidableEq

/-- One iteration of the `for stash_item in stash` loop of `analyze_optimize`. -/
def optStep (items : Catalog) (recycle_table : Table) (hold_set : List String)
    (params : OptimizeParams) (acc : OptAcc) (stash_item : StashItem) : OptAcc :=
  match alook items stash_item.item_id with
  | none => acc
  | some item =>
    if stash_item.item_id ∈ hold_set then
      { acc with hold_recs :=
          acc.hold_recs ++ [build_recommendation stash_item item recycle_table "hold"] }
    else
      let sell_value := item.value * stash_item.quantity
      let recycle_value := (alook recycle_table stash_item.item_id).getD 0 * stash_item.quantity
      if |sell_value - recycle_value| < params.min_profit_threshold then acc
      else if sell_value > recycle_value then
        { acc with
          sell_recs := acc.sell_recs ++ [build_recommendation stash_item item recycle_table "sell"]
          total_sell_value := acc.total_sell_value + sell_value }
      else if recycle_value > sell_value then
        { acc with
          recycle_recs :=
            acc.recycle_recs ++ [build_recommendation stash_item item recycle_table "recycle"]
          total_recycle_value := acc.total_recycle_value + recycle_value }
      else
        { acc with
          sell_recs := acc.sell_recs ++ [build_recommendation stash_item item recycle_table "sell"]
          total_sell_value := acc.total_sell_value + sell_value }

/-- `engine.analyze_optimize`. -/
def analyze_optimize (stash : List StashItem) (items : Catalog) (recycle_table : Table)
    (quests : List (String × Quest)) (params : OptimizeParams) : OptimizeResult :=
  let hold_set := if params.quest_aware then build_quest_hold_set quests items else []
  let acc := stash.foldl (optStep items recycle_table hold_set params)
    { sell_recs := [], recycle_recs := [], hold_recs := []
      total_sell_value := 0, total_recycle_value := 0 }
  { sell := pySort (fun a b => b.sell_value ≤ a.sell_value) acc.sell_recs
    recycle := pySort (fun a b => a.margin ≤ b.margin) acc.recycle_recs
    hold := pySort (fun a b => a.name ≤ b.name) acc.hold_recs
    total_sell_value := acc.total_sell_value
    total_recycle_value := acc.total_recycle_value
    total_hold_count := acc.hold_recs.length }

/-! ## `_resolve_item_by_name` (engine.py lines 322-354) -/

/-- `engine._resolve_item_by_name`. -/
def resolve_item_by_name (query : String) (items : Catalog) : Option Item :=
  let query_lower := stripStr (lowerStr query)
  if query_lower.data = [] then none
  else
    match items.find? (fun ip => lowerStr (nameGet ip.2.name "en" "") == query_lower) with
    | some ip => some ip.2
    | none =>
      let subMatches := (items.filter (fun ip =>
        strHas query_lower.data (lowerStr (nameGet ip.2.name "en" "")).data)).map Prod.snd
      match pySort
          (fun a b => (nameGet a.name "en" "").length ≤ (nameGet b.name "en" "").length)
          subMatches with
      | [] => none
      | m :: _ => some m

/-! ## `find_recycle_sources` (engine.py lines 357-458) -/

/-- `engine._build_reverse_recycle_map`. -/
def build_reverse_recycle_map (items : Catalog) : List (String × List (String × Int)) :=
  items.foldl (fun rev ip =>
    ip.2.recycles_into.foldl (fun rev mq => dictAppend rev mq.1 (ip.1, mq.2)) rev) []

/-- The shared body of the seeding loop and of the expansion loop of the BFS:
walk the producers `nbrs` of a node of yield `cur_yield` and chain `cur_chain`,
skipping already-visited or catalog-missing producers, and record
`(new_yield, new_chain) = (qty * cur_yield, producer_name :: cur_chain)`.
The seeding loop of the Python source is this with `cur_yield = 1` and
`cur_chain = [target_name]`. -/
def expandFrom (items : Catalog) (cur_yield : Int) (cur_chain : List String) :
    List (String × Int) → List (String × Int × List String) → List String →
    List (String × Int) →
    List (String × Int × List String) × List String × List (String × Int)
  | [], sources, visited, qacc => (sources, visited, qacc)
  | (source_id, qty) :: rest, sources, visited, qacc =>
    if source_id ∈ visited ∨ alook items source_id = none then
      expandFrom items cur_yield cur_chain rest sources visited qacc
    else
      let source_name := match alook items source_id with
        | some it => nameGet it.name "en" source_id
        | none => source_id
      let new_yield := qty * cur_yield
      let new_chain := source_name :: cur_chain
      expandFrom items cur_yield cur_chain rest
        (sources ++ [(source_id, new_yield, new_chain)])
        (visited ++ [source_id])
        (qacc ++ [(source_id, new_yield)])

/-- The `while queue:` loop of `find_recycle_sources`, fuelled by the number
of pops (Python's loop always terminates because each enqueued id is fresh,
but the embedding does not assume that). -/
def bfsLoop (items : Catalog) (rev : List (String × List (String × Int))) :
    Nat → List (String × Int) → List (String × Int × List String) → List String →
    Option (List (String × Int × List String))
  | _, [], sources, _ => some sources
  | 0, _ :: _, _, _ => none
  | fuel + 1, (current_id, current_yield) :: qrest, sources, visited =>
    let current_chain := match alook sources current_id with
      | some p => p.2
      | none => []
    let s := expandFrom items current_yield current_chain
      ((alook rev current_id).getD []) sources visited []
    bfsLoop items rev fuel (qrest ++ s.2.2) s.1 s.2.1

/-- The dict comprehension `{s.item_id: s for s in stash}`: later stash
entries with the same id overwrite earlier ones. -/
def stashDict (stash : List StashItem) : List (String × StashItem) :=
  stash.foldl (fun d s => dictSet d s.item_id s) []

/-- `engine.find_recycle_sources`.  `fuel` bounds the BFS loop; `none` never
occurs for `fuel ≥ items.length` but the claims do not need that bound.
The inner `alook items` match never takes its `none` arm (the BFS only visits
catalog ids); it mirrors Python's `items[item_id]` indexing. -/
def find_recycle_sources (fuel : Nat) (target_query : String) (stash : List StashItem)
    (items : Catalog) : Option (Option Item × List RecycleSource) :=
  match resolve_item_by_name target_query items with
  | none => some (none, [])
  | some target =>
    let target_id := target.id
    let target_name := nameGet target.name "en" target_id
    let rev := build_reverse_recycle_map items
    let s0 := expandFrom items 1 [target_name] ((alook rev target_id).getD [])
      [] [target_id] []
    match bfsLoop items rev fuel s0.2.2 s0.1 s0.2.1 with
    | none => none
    | some sources =>
      let stash_map := stashDict stash
      let results := sources.filterMap (fun src =>
        match alook stash_map src.1 with
        | none => none
        | some si =>
          match alook items src.1 with
          | none => none
          | some it =>
            some { item_id := src.1
                   name := nameGet it.name "en" si.name
                   quantity := si.quantity
                   yield_per_unit := src.2.1
                   total_yield := src.2.1 * si.quantity
                   depth := src.2.2.length - 1
                   chain := src.2.2 })
      some (some target, pySort (fun a b => b.total_yield ≤ a.total_yield) results)

/-! ## Generic lemmas: association-list lookup -/

theorem alook_append {β : Type} (l₁ l₂ : List (String × β)) (key : String) :
    alook (l₁ ++ l₂) key =
      match alook l₁ key with
      | some v => some v
      | none => alook l₂ key := by
  induction l₁ with
  | nil => simp [alook]
  | cons p rest ih =>
    obtain ⟨k, v⟩ := p
    by_cases h : k = key <;> simp [alook, h, ih]

theorem alook_eq_none {β : Type} (l : List (String × β)) (key : String) :
    alook l key = none ↔ key ∉ l.map Prod.fst := by
  induction l with
  | nil => simp [alook]
  | cons p rest ih =>
    obtain ⟨k, v⟩ := p
    by_cases h : k = key
    · subst h; simp [alook]
    · simp only [alook, if_neg h, ih, List.map_cons, List.mem_cons]
      constructor
      · intro hn hmem
        rcases hmem with hk | hm
        · exact h hk.symm
        · exact hn hm
      · exact fun hn hm => hn (Or.inr hm)

theorem alook_mem {β : Type} {l : List (String × β)} {key : String} {v : β}
    (h : alook l key = some v) : (key, v) ∈ l := by
  induction l with
  | nil => simp [alook] at h
  | cons p rest ih =>
    obtain ⟨k, w⟩ := p
    by_cases hk : k = key
    · simp [alook, hk] at h
      simp [hk, h]
    · simp [alook, hk] at h
      exact List.mem_cons_of_mem _ (ih h)

theorem alook_of_mem_keys {β : Type} {l : List (String × β)} {key : String}
    (h : key ∈ l.map Prod.fst) : ∃ v, alook l key = some v := by
  cases hl : alook l key with
  | some v => exact ⟨v, rfl⟩
  | none => exact absurd ((alook_eq_none l key).1 hl) (not_not_intro h)

theorem keys_of_alook {β : Type} {l : List (String × β)} {key : String} {v : β}
    (h : alook l key = some v) : key ∈ l.map Prod.fst := by
  by_contra hk
  rw [(alook_eq_none l key).2 hk] at h
  cases h

/-! ## Generic lemmas: the stable sort `pySort` -/

theorem pyInsert_perm {α : Type} (le : α → α → Bool) (x : α) (l : List α) :
    (pyInsert le x l).Perm (x :: l) := by
  induction l with
  | nil => simp [pyInsert]
  | cons y ys ih =>
    by_cases h : le y x = true
    · simpa [pyInsert, h] using (ih.cons y).trans (List.Perm.swap x y ys)
    · simp [pyInsert, h]

theorem pySort_perm {α : Type} (le : α → α → Bool) (l : List α) :
    (pySort le l).Perm l := by
  suffices h : ∀ (l acc : List α),
      (l.foldl (fun acc x => pyInsert le x acc) acc).Perm (acc ++ l) by
    simpa using h l []
  intro l
  induction l with
  | nil => simp
  | cons x rest ih =>
    intro acc
    refine (ih (pyInsert le x acc)).trans ?_
    have h1 : (pyInsert le x acc ++ rest).Perm ((x :: acc) ++ rest) :=
      (pyInsert_perm le x acc).append_right rest
    exact h1.trans List.perm_middle.symm

theorem pyInsert_pairwise {α : Type} {le : α → α → Bool}
    (htot : ∀ a b, le a b = true ∨ le b a = true)
    (htrans : ∀ a b c, le a b = true → le b c = true → le a c = true)
    {l : List α} (hl : l.Pairwise (fun a b => le a b = true)) (x : α) :
    (pyInsert le x l).Pairwise (fun a b => le a b = true) := by
  induction l with
  | nil => simp [pyInsert]
  | cons y ys ih =>
    rcases List.pairwise_cons.1 hl with ⟨hy, hys⟩
    by_cases h : le y x = true
    · rw [pyInsert, if_pos h]
      refine List.pairwise_cons.2 ⟨?_, ih hys⟩
      intro z hz
      have hz' := (pyInsert_perm le x ys).mem_iff.1 hz
      rcases List.mem_cons.1 hz' with rfl | hz''
      · exact h
      · exact hy z hz''
    · have hxy : le x y = true := (htot x y).resolve_right (fun hc => h hc)
      rw [pyInsert, if_neg h]
      refine List.pairwise_cons.2 ⟨?_, hl⟩
      intro z hz
      rcases List.mem_cons.1 hz with rfl | hz'
      · exact hxy
      · exact htrans x y z hxy (hy z hz')

theorem pySort_pairwise {α : Type} {le : α → α → Bool}
    (htot : ∀ a b, le a b = true ∨ le b a = true)
    (htrans : ∀ a b c, le a b = true → le b c = true → le a c = true)
    (l : List α) : (pySort le l).Pairwise (fun a b => le a b = true) := by
  suffices h : ∀ (l acc : List α), acc.Pairwise (fun a b => le a b = true) →
      (l.foldl (fun acc x => pyInsert le x acc) acc).Pairwise (fun a b => le a b = true) by
    exact h l [] (by simp)
  intro l
  induction l with
  | nil => intro acc hacc; simpa using hacc
  | cons x rest ih =>
    intro acc hacc
    exact ih (pyInsert le x acc) (pyInsert_pairwise htot htrans hacc x)

/-! ## The recycle graph and the memo-table invariant

`REdge items a b` holds when resolving `a` recurses into `b`: `a` is a catalog
item, `b` appears in its `recycles_into`, and `b` is itself in the catalog
(Python skips catalog-missing materials).  `ReachCycle a` says `a` can reach a
cycle of the recycle graph — exactly the inputs on which Python's `_resolve`
recurses forever. -/

def REdge (items : Catalog) (a b : String) : Prop :=
  ∃ item q mat, alook items a = some item ∧ (b, q) ∈ item.recycles_into ∧
    alook items b = some mat

def ReachCycle (items : Catalog) (a : String) : Prop :=
  ∃ c, Relation.ReflTransGen (REdge items) a c ∧ Relation.TransGen (REdge items) c c

theorem reachCycle_step {items : Catalog} {a : String} (h : ReachCycle items a) :
    ∃ b, REdge items a b ∧ ReachCycle items b := by
  obtain ⟨c, hac, hcc⟩ := h
  rcases hac.cases_head with rfl | ⟨b, hab, hbc⟩
  · obtain ⟨b, hab, hba⟩ := Relation.TransGen.head'_iff.1 hcc
    exact ⟨b, hab, a, hba, hcc⟩
  · exact ⟨b, hab, c, hbc, hcc⟩

/-- The claim's deep-value formula: sum over the materials of
`max(material.value, deep value of the material)` times the yield quantity,
a material absent from the catalog contributing zero.  The deep value of a
material is looked up in the table `tb`. -/
def matsSum (items : Catalog) (tb : Table) : List (String × Int) → Int
  | [] => 0
  | (mid, mq) :: rest =>
    (match alook items mid with
     | none => 0
     | some mat => max mat.value ((alook tb mid).getD 0) * mq) + matsSum items tb rest

/-- Table extension: every binding of `tb` is still visible in `tb'`
(memo entries are written once and never change). -/
def TbLe (tb tb' : Table) : Prop := ∀ k v, alook tb k = some v → alook tb' k = some v

/-- The fixpoint equation satisfied by a finished memo entry `k`. -/
def EqnAt (items : Catalog) (tb : Table) (k : String) : Prop :=
  (alook items k = none → alook tb k = some 0) ∧
  ∀ item, alook items k = some item →
    (item.recycles_into = [] → alook tb k = some 0) ∧
    (item.recycles_into ≠ [] →
      alook tb k = some (matsSum items tb item.recycles_into) ∧
      ∀ p ∈ item.recycles_into, p.1 ∈ items.map Prod.fst → p.1 ∈ tb.map Prod.fst)

/-- Invariant maintained by the memo table throughout `build_deep_recycle_table`:
keys are unique catalog ids, none of them reaches a recycle cycle, and every
entry satisfies its fixpoint equation. -/
structure TblInv (items : Catalog) (tb : Table) : Prop where
  nodup : (tb.map Prod.fst).Nodup
  sub : ∀ k ∈ tb.map Prod.fst, k ∈ items.map Prod.fst
  cycfree : ∀ k ∈ tb.map Prod.fst, ¬ ReachCycle items k
  eqns : ∀ k ∈ tb.map Prod.fst, EqnAt items tb k

theorem tblInv_nil (items : Catalog) : TblInv items [] := by
  constructor <;> simp

theorem tbLe_refl (tb : Table) : TbLe tb tb := fun _ _ h => h

theorem tbLe_trans {tb₁ tb₂ tb₃ : Table} (h₁ : TbLe tb₁ tb₂) (h₂ : TbLe tb₂ tb₃) :
    TbLe tb₁ tb₃ := fun k v h => h₂ k v (h₁ k v h)

theorem tbLe_append (tb ext : Table) : TbLe tb (tb ++ ext) := by
  intro k v h
  rw [alook_append, h]

theorem tbLe_keys {tb tb' : Table} (h : TbLe tb tb') :
    ∀ k ∈ tb.map Prod.fst, k ∈ tb'.map Prod.fst := by
  intro k hk
  obtain ⟨v, hv⟩ := alook_of_mem_keys hk
  exact keys_of_alook (h k v hv)

theorem alook_append_right {tb : Table} {id : String} (v : Int)
    (h : alook tb id = none) : alook (tb ++ [(id, v)]) id = some v := by
  rw [alook_append, h]
  simp [alook]

theorem matsSum_stable {items : Catalog} {tb tb' : Table} (hle : TbLe tb tb')
    (mats : List (String × Int))
    (hmem : ∀ p ∈ mats, p.1 ∈ items.map Prod.fst → p.1 ∈ tb.map Prod.fst) :
    matsSum items tb' mats = matsSum items tb mats := by
  induction mats with
  | nil => rfl
  | cons p rest ih =>
    obtain ⟨mid, mq⟩ := p
    have hrest := ih (fun p hp => hmem p (List.mem_cons_of_mem _ hp))
    cases hitem : alook items mid with
    | none => simp [matsSum, hitem, hrest]
    | some mat =>
      have hmid : mid ∈ tb.map Prod.fst :=
        hmem (mid, mq) (List.mem_cons_self _ _) (keys_of_alook hitem)
      obtain ⟨v, hv⟩ := alook_of_mem_keys hmid
      simp [matsSum, hitem, hrest, hv, hle mid v hv]

theorem eqnAt_stable {items : Catalog} {tb tb' : Table} (hle : TbLe tb tb')
    {k : String} (h : EqnAt items tb k) : EqnAt items tb' k := by
  obtain ⟨hnone, hsome⟩ := h
  refine ⟨fun hn => hle k 0 (hnone hn), fun item hitem => ?_⟩
  obtain ⟨hnil, hcons⟩ := hsome item hitem
  refine ⟨fun hrec => hle k 0 (hnil hrec), fun hrec => ?_⟩
  obtain ⟨hval, hmem⟩ := hcons hrec
  refine ⟨?_, fun p hp hpk => tbLe_keys hle _ (hmem p hp hpk)⟩
  rw [matsSum_stable hle item.recycles_into hmem]
  exact hle k _ hval

/-- What a successful `_resolve` call guarantees: the invariant is preserved,
the table only grows, the resolved id is memoized with the returned value, and
every new key is the resolved id or a transitive material of it. -/
def ResolveA (items : Catalog) (fuel : Nat) : Prop :=
  ∀ id tb v tb', TblInv items tb → id ∈ items.map Prod.fst →
    resolveF items fuel id tb = some (v, tb') →
    TblInv items tb' ∧ TbLe tb tb' ∧ alook tb' id = some v ∧
    ∀ k ∈ tb'.map Prod.fst,
      k ∈ tb.map Prod.fst ∨ k = id ∨ Relation.TransGen (REdge items) id k

/-- A `_resolve` call on an id that reaches a recycle cycle exhausts any
amount of fuel (this is the divergence of the Python original). -/
def ResolveB (items : Catalog) (fuel : Nat) : Prop :=
  ∀ id tb, TblInv items tb → id ∈ items.map Prod.fst → ReachCycle items id →
    resolveF items fuel id tb = none

theorem nodup_snoc {l : List String} {a : String} (h : l.Nodup) (ha : a ∉ l) :
    (l ++ [a]).Nodup := by
  rw [List.nodup_append]
  exact ⟨h, List.nodup_singleton a, by simpa [List.disjoint_singleton] using ha⟩

theorem resolveMatsA (items : Catalog) (fuel : Nat) (hA : ResolveA items fuel) :
    ∀ mats total tb total' tb₂, TblInv items tb →
      resolveMats items (resolveF items fuel) mats total tb = some (total', tb₂) →
      TblInv items tb₂ ∧ TbLe tb tb₂ ∧
      total' = total + matsSum items tb₂ mats ∧
      (∀ p ∈ mats, p.1 ∈ items.map Prod.fst → p.1 ∈ tb₂.map Prod.fst) ∧
      (∀ k ∈ tb₂.map Prod.fst, k ∈ tb.map Prod.fst ∨
        ∃ p ∈ mats, p.1 ∈ items.map Prod.fst ∧
          (k = p.1 ∨ Relation.TransGen (REdge items) p.1 k)) := by
  intro mats
  induction mats with
  | nil =>
    intro total tb total' tb₂ hInv hres
    simp only [resolveMats, Option.some.injEq, Prod.mk.injEq] at hres
    obtain ⟨rfl, rfl⟩ := hres
    exact ⟨hInv, tbLe_refl tb, by simp [matsSum], by simp, fun k hk => Or.inl hk⟩
  | cons p rest ih =>
    obtain ⟨mid, mq⟩ := p
    intro total tb total' tb₂ hInv hres
    cases h1 : alook items mid with
    | none =>
      rw [resolveMats, h1] at hres
      obtain ⟨hInv2, hle, htot, hmats, hkeys⟩ := ih total tb total' tb₂ hInv hres
      refine ⟨hInv2, hle, ?_, ?_, ?_⟩
      · simp [matsSum, h1, htot]
      · intro p hp hpk
        rcases List.mem_cons.1 hp with rfl | hp'
        · exact absurd ((alook_eq_none items mid).1 h1) (not_not_intro hpk)
        · exact hmats p hp' hpk
      · intro k hk
        rcases hkeys k hk with hk' | ⟨p, hp, hrest⟩
        · exact Or.inl hk'
        · exact Or.inr ⟨p, List.mem_cons_of_mem _ hp, hrest⟩
    | some mat =>
      rw [resolveMats, h1] at hres
      cases h2 : resolveF items fuel mid tb with
      | none => rw [h2] at hres; cases hres
      | some r =>
        obtain ⟨md, tb1⟩ := r
        rw [h2] at hres
        have hmid : mid ∈ items.map Prod.fst := keys_of_alook h1
        obtain ⟨hInv1, hle1, hmd1, hkeys1⟩ := hA mid tb md tb1 hInv hmid h2
        obtain ⟨hInv2, hle2, htot, hmats, hkeys2⟩ :=
          ih (total + max mat.value md * mq) tb1 total' tb₂ hInv1 hres
        have hmd2 : alook tb₂ mid = some md := hle2 mid md hmd1
        refine ⟨hInv2, tbLe_trans hle1 hle2, ?_, ?_, ?_⟩
        · simp only [matsSum, h1, hmd2, Option.getD_some, htot]
          ring
        · intro p hp hpk
          rcases List.mem_cons.1 hp with rfl | hp'
          · exact keys_of_alook hmd2
          · exact hmats p hp' hpk
        · intro k hk
          rcases hkeys2 k hk with hk1 | ⟨p, hp, hpk, hrest⟩
          · rcases hkeys1 k hk1 with hk0 | hk0 | hk0
            · exact Or.inl hk0
            · exact Or.inr ⟨(mid, mq), List.mem_cons_self _ _, hmid, Or.inl hk0⟩
            · exact Or.inr ⟨(mid, mq), List.mem_cons_self _ _, hmid, Or.inr hk0⟩
          · exact Or.inr ⟨p, List.mem_cons_of_mem _ hp, hpk, hrest⟩

theorem resolveMatsB (items : Catalog) (fuel : Nat) (hA : ResolveA items fuel)
    (hB : ResolveB items fuel) :
    ∀ mats total tb, TblInv items tb →
      (∃ p ∈ mats, p.1 ∈ items.map Prod.fst ∧ ReachCycle items p.1) →
      resolveMats items (resolveF items fuel) mats total tb = none := by
  intro mats
  induction mats with
  | nil => intro total tb _ h; simp at h
  | cons p rest ih =>
    obtain ⟨mid, mq⟩ := p
    intro total tb hInv hex
    obtain ⟨p, hp, hpk, hpc⟩ := hex
    rcases List.mem_cons.1 hp with rfl | hp'
    · obtain ⟨mat, h1⟩ := alook_of_mem_keys hpk
      rw [resolveMats, h1, hB mid tb hInv hpk hpc]
    · cases h1 : alook items mid with
      | none =>
        rw [resolveMats, h1]
        exact ih total tb hInv ⟨p, hp', hpk, hpc⟩
      | some mat =>
        rw [resolveMats, h1]
        cases h2 : resolveF items fuel mid tb with
        | none => rfl
        | some r =>
          obtain ⟨md, tb1⟩ := r
          have hmid : mid ∈ items.map Prod.fst := keys_of_alook h1
          obtain ⟨hInv1, _, _, _⟩ := hA mid tb md tb1 hInv hmid h2
          exact ih _ tb1 hInv1 ⟨p, hp', hpk, hpc⟩

theorem not_reachCycle_of_nil {items : Catalog} {id : String} {item : Item}
    (hitem : alook items id = some item) (hrec : item.recycles_into = []) :
    ¬ ReachCycle items id := by
  intro hc
  obtain ⟨b, hedge, _⟩ := reachCycle_step hc
  obtain ⟨item1, q, mat, hitem1, hbmem, _⟩ := hedge
  rw [hitem] at hitem1
  injection hitem1 with h
  subst h
  rw [hrec] at hbmem
  simp at hbmem

theorem eqnAt_main {items : Catalog} {tb : Table} {id : String} {item : Item}
    (hitem : alook items id = some item)
    (hlook : alook tb id = some (matsSum items tb item.recycles_into))
    (hmem : ∀ p ∈ item.recycles_into, p.1 ∈ items.map Prod.fst → p.1 ∈ tb.map Prod.fst) :
    EqnAt items tb id := by
  refine ⟨fun hn => ?_, fun item1 hitem1 => ?_⟩
  · rw [hitem] at hn; cases hn
  · rw [hitem] at hitem1
    injection hitem1 with h
    subst h
    refine ⟨fun hrec => ?_, fun _ => ⟨hlook, hmem⟩⟩
    rw [hrec] at hlook
    simpa [matsSum] using hlook

theorem tblInv_snoc {items : Catalog} {tb : Table} {id : String} {v : Int}
    (hInv : TblInv items tb) (hid : id ∈ items.map Prod.fst)
    (hfresh : id ∉ tb.map Prod.fst)
    (hcyc : ¬ ReachCycle items id)
    (heqn : EqnAt items (tb ++ [(id, v)]) id) :
    TblInv items (tb ++ [(id, v)]) := by
  have hkeys : (tb ++ [(id, v)]).map Prod.fst = tb.map Prod.fst ++ [id] := by simp
  constructor
  · rw [hkeys]; exact nodup_snoc hInv.nodup hfresh
  · intro k hk
    rw [hkeys, List.mem_append, List.mem_singleton] at hk
    rcases hk with hk | rfl
    · exact hInv.sub k hk
    · exact hid
  · intro k hk
    rw [hkeys, List.mem_append, List.mem_singleton] at hk
    rcases hk with hk | rfl
    · exact hInv.cycfree k hk
    · exact hcyc
  · intro k hk
    rw [hkeys, List.mem_append, List.mem_singleton] at hk
    rcases hk with hk | rfl
    · exact eqnAt_stable (tbLe_append tb _) (hInv.eqns k hk)
    · exact heqn

theorem resolve_ok (items : Catalog) :
    ∀ fuel, ResolveA items fuel ∧ ResolveB items fuel := by
  intro fuel
  induction fuel with
  | zero =>
    constructor
    · intro id tb v tb' _ _ h
      simp [resolveF] at h
    · intro id tb _ _ _
      rfl
  | succ fuel ih =>
    obtain ⟨ihA, ihB⟩ := ih
    have hB : ResolveB items (fuel + 1) := by
      intro id tb hInv hid hcyc
      cases htb : alook tb id with
      | some v => exact absurd hcyc (hInv.cycfree id (keys_of_alook htb))
      | none =>
        obtain ⟨b, hedge, hbc⟩ := reachCycle_step hcyc
        obtain ⟨item, q, mat, hitem, hbmem, hbcat⟩ := hedge
        have hmats : resolveMats items (resolveF items fuel) item.recycles_into 0 tb = none :=
          resolveMatsB items fuel ihA ihB item.recycles_into 0 tb hInv
            ⟨(b, q), hbmem, keys_of_alook hbcat, hbc⟩
        cases hrec : item.recycles_into with
        | nil => rw [hrec] at hbmem; simp at hbmem
        | cons m rest =>
          rw [hrec] at hmats
          simp only [resolveF, htb, hitem, hrec, hmats]
    have hA : ResolveA items (fuel + 1) := by
      intro id tb v tb' hInv hid hres
      have hres0 := hres
      cases htb : alook tb id with
      | some v0 =>
        simp only [resolveF, htb, Option.some.injEq, Prod.mk.injEq] at hres
        obtain ⟨rfl, rfl⟩ := hres
        exact ⟨hInv, tbLe_refl tb, htb, fun k hk => Or.inl hk⟩
      | none =>
        obtain ⟨item, hitem⟩ := alook_of_mem_keys hid
        have hidtb : id ∉ tb.map Prod.fst := (alook_eq_none tb id).1 htb
        cases hrec : item.recycles_into with
        | nil =>
          simp only [resolveF, htb, hitem, hrec, Option.some.injEq, Prod.mk.injEq] at hres
          obtain ⟨rfl, rfl⟩ := hres
          have hcycid := not_reachCycle_of_nil hitem hrec
          have hlook : alook (tb ++ [(id, 0)]) id = some 0 := alook_append_right 0 htb
          refine ⟨tblInv_snoc hInv hid hidtb hcycid ?_, tbLe_append tb _, hlook, ?_⟩
          · refine eqnAt_main hitem ?_ ?_
            · rw [hrec]; exact hlook
            · rw [hrec]; simp
          · intro k hk
            simp only [List.map_append, List.map_cons, List.map_nil, List.mem_append,
              List.mem_singleton] at hk
            rcases hk with hk | rfl
            · exact Or.inl hk
            · exact Or.inr (Or.inl rfl)
        | cons m rest =>
          simp only [resolveF, htb, hitem, hrec] at hres
          cases hmres : resolveMats items (resolveF items fuel) (m :: rest) 0 tb with
          | none => rw [hmres] at hres; cases hres
          | some r =>
            obtain ⟨total, tb2⟩ := r
            rw [hmres] at hres
            simp only [Option.some.injEq, Prod.mk.injEq] at hres
            obtain ⟨rfl, rfl⟩ := hres
            rw [← hrec] at hmres
            obtain ⟨hInv2, hle2, htot, hmats, hkeys2⟩ :=
              resolveMatsA items fuel ihA item.recycles_into 0 tb total tb2 hInv hmres
            have hcycid : ¬ ReachCycle items id := by
              intro hc
              rw [hB id tb hInv hid hc] at hres0
              cases hres0
            have hedge_of : ∀ p : String × Int, p ∈ item.recycles_into →
                p.1 ∈ items.map Prod.fst → REdge items id p.1 := by
              intro p hp hpk
              obtain ⟨matp, hmp⟩ := alook_of_mem_keys hpk
              exact ⟨item, p.2, matp, hitem, by simpa using hp, hmp⟩
            have htrans_of : ∀ k, k ∈ tb2.map Prod.fst → k ∉ tb.map Prod.fst →
                Relation.TransGen (REdge items) id k := by
              intro k hk hknot
              rcases hkeys2 k hk with hk' | ⟨p, hp, hpk, hcase⟩
              · exact absurd hk' hknot
              · have hedge := hedge_of p hp hpk
                rcases hcase with rfl | htg
                · exact Relation.TransGen.single hedge
                · exact Relation.TransGen.head hedge htg
            have hidtb2 : id ∉ tb2.map Prod.fst := by
              intro hk
              exact hcycid ⟨id, Relation.ReflTransGen.refl, htrans_of id hk hidtb⟩
            have hlookid : alook (tb2 ++ [(id, total)]) id = some total :=
              alook_append_right total ((alook_eq_none tb2 id).2 hidtb2)
            have htot' : total = matsSum items (tb2 ++ [(id, total)]) item.recycles_into := by
              rw [matsSum_stable (tbLe_append tb2 _) item.recycles_into hmats]
              simpa using htot
            refine ⟨tblInv_snoc hInv2 hid hidtb2 hcycid ?_,
              tbLe_trans hle2 (tbLe_append tb2 _), hlookid, ?_⟩
            · refine eqnAt_main hitem ?_ ?_
              · rw [← htot']; exact hlookid
              · intro p hp hpk
                exact tbLe_keys (tbLe_append tb2 _) _ (hmats p hp hpk)
            · intro k hk
              simp only [List.map_append, List.map_cons, List.map_nil, List.mem_append,
                List.mem_singleton] at hk
              rcases hk with hk | rfl
              · by_cases hkin : k ∈ tb.map Prod.fst
                · exact Or.inl hkin
                · exact Or.inr (Or.inr (htrans_of k hk hkin))
              · exact Or.inr (Or.inl rfl)
    exact ⟨hA, hB⟩

theorem buildLoop_ok (items : Catalog) (fuel : Nat) :
    ∀ ids tb table, TblInv items tb → (∀ id ∈ ids, id ∈ items.map Prod.fst) →
      buildLoop items fuel ids tb = some table →
      TblInv items table ∧ TbLe tb table ∧ ∀ id ∈ ids, id ∈ table.map Prod.fst := by
  intro ids
  induction ids with
  | nil =>
    intro tb table hInv _ hres
    simp only [buildLoop, Option.some.injEq] at hres
    subst hres
    exact ⟨hInv, tbLe_refl tb, by simp⟩
  | cons id rest ih =>
    intro tb table hInv hids hres
    cases hr : resolveF items fuel id tb with
    | none => rw [buildLoop, hr] at hres; cases hres
    | some r =>
      obtain ⟨v, tb1⟩ := r
      rw [buildLoop, hr] at hres
      obtain ⟨hInv1, hle1, hlook1, _⟩ :=
        (resolve_ok items fuel).1 id tb v tb1 hInv (hids id (List.mem_cons_self _ _)) hr
      obtain ⟨hInvT, hleT, hmemT⟩ :=
        ih tb1 table hInv1 (fun i hi => hids i (List.mem_cons_of_mem _ hi)) hres
      refine ⟨hInvT, tbLe_trans hle1 hleT, ?_⟩
      intro i hi
      rcases List.mem_cons.1 hi with rfl | hi'
      · exact keys_of_alook (hleT i v hlook1)
      · exact hmemT i hi'

/-! ## Termination apparatus for the acyclic case -/

def freeCount (items : Catalog) (tb : Table) : Nat :=
  ((items.map Prod.fst).toFinset \ (tb.map Prod.fst).toFinset).card

theorem freeCount_mono {items : Catalog} {tb tb' : Table}
    (h : ∀ k ∈ tb.map Prod.fst, k ∈ tb'.map Prod.fst) :
    freeCount items tb' ≤ freeCount items tb := by
  apply Finset.card_le_card
  intro x hx
  simp only [Finset.mem_sdiff, List.mem_toFinset] at hx ⊢
  exact ⟨hx.1, fun hc => hx.2 (h x hc)⟩

theorem freeCount_lower {items : Catalog} {tb : Table} {P : List String} (hnd : P.Nodup)
    (hP : ∀ p ∈ P, p ∈ items.map Prod.fst ∧ p ∉ tb.map Prod.fst) :
    P.length ≤ freeCount items tb := by
  have hsub : P.toFinset ⊆ (items.map Prod.fst).toFinset \ (tb.map Prod.fst).toFinset := by
    intro x hx
    simp only [List.mem_toFinset, Finset.mem_sdiff] at hx ⊢
    exact ⟨(hP x hx).1, (hP x hx).2⟩
  calc P.length = P.toFinset.card := (List.toFinset_card_of_nodup hnd).symm
    _ ≤ _ := Finset.card_le_card hsub

theorem freeCount_le (items : Catalog) (tb : Table) : freeCount items tb ≤ items.length := by
  calc freeCount items tb ≤ (items.map Prod.fst).toFinset.card :=
        Finset.card_le_card (Finset.sdiff_subset)
    _ ≤ (items.map Prod.fst).length := (items.map Prod.fst).toFinset_card_le
    _ = items.length := List.length_map _ _

/-- With enough fuel, `_resolve` succeeds whenever no id can reach a recycle
cycle.  `P` is the (ghost) chain of in-progress resolutions: distinct, not yet
memoized, and each an ancestor of `id` in the recycle graph.  The fuel needed
is `freeCount - |P|`, which proves the spec's depth bound: the recursion depth
never exceeds the number of distinct catalog items. -/
def SuffOk (items : Catalog) (fuel : Nat) : Prop :=
  ∀ (id : String) (tb : Table) (P : List String),
    TblInv items tb → id ∈ items.map Prod.fst →
    (∀ c, ¬ Relation.TransGen (REdge items) c c) →
    P.Nodup → id ∉ P →
    (∀ p ∈ P, p ∈ items.map Prod.fst ∧ p ∉ tb.map Prod.fst ∧
      Relation.TransGen (REdge items) p id) →
    freeCount items tb < fuel + P.length →
    ∃ res, resolveF items fuel id tb = some res

theorem suffMats (items : Catalog) (fuel : Nat) (hS : SuffOk items fuel) (id : String)
    (item : Item) (hitem : alook items id = some item)
    (hacyc : ∀ c, ¬ Relation.TransGen (REdge items) c c)
    (P : List String) (hnd : P.Nodup) (hidP : id ∉ P) (hid : id ∈ items.map Prod.fst)
    (hPmeta : ∀ p ∈ P, p ∈ items.map Prod.fst ∧ Relation.TransGen (REdge items) p id) :
    ∀ mats total tb, TblInv items tb →
      (∀ p ∈ mats, (p.1, p.2) ∈ item.recycles_into) →
      (∀ p, (p = id ∨ p ∈ P) → p ∉ tb.map Prod.fst) →
      freeCount items tb < fuel + 1 + P.length →
      ∃ res, resolveMats items (resolveF items fuel) mats total tb = some res := by
  intro mats
  induction mats with
  | nil => intro total tb _ _ _ _; exact ⟨(total, tb), rfl⟩
  | cons p rest ih =>
    obtain ⟨mid, mq⟩ := p
    intro total tb hInv hmats hPfree hfc
    cases h1 : alook items mid with
    | none =>
      obtain ⟨res, hres⟩ :=
        ih total tb hInv (fun p hp => hmats p (List.mem_cons_of_mem _ hp)) hPfree hfc
      refine ⟨res, ?_⟩
      simp only [resolveMats, h1]
      exact hres
    | some mat =>
      have hmidk : mid ∈ items.map Prod.fst := keys_of_alook h1
      have hedge : REdge items id mid :=
        ⟨item, mq, mat, hitem, hmats (mid, mq) (List.mem_cons_self _ _), h1⟩
      have hmidP : mid ∉ id :: P := by
        intro hin
        rcases List.mem_cons.1 hin with rfl | hin'
        · exact hacyc mid (Relation.TransGen.single hedge)
        · exact hacyc mid ((hPmeta mid hin').2.trans (Relation.TransGen.single hedge))
      have hnest := hS mid tb (id :: P) hInv hmidk hacyc
        (List.nodup_cons.2 ⟨hidP, hnd⟩) hmidP
        (by
          intro p hp
          rcases List.mem_cons.1 hp with rfl | hp'
          · exact ⟨hid, hPfree p (Or.inl rfl), Relation.TransGen.single hedge⟩
          · exact ⟨(hPmeta p hp').1, hPfree p (Or.inr hp'),
              Relation.TransGen.tail (hPmeta p hp').2 hedge⟩)
        (by simp only [List.length_cons]; omega)
      obtain ⟨⟨md, tb1⟩, h2⟩ := hnest
      obtain ⟨hInv1, hle1, hmd1, hkeys1⟩ :=
        (resolve_ok items fuel).1 mid tb md tb1 hInv hmidk h2
      have hPfree1 : ∀ p, (p = id ∨ p ∈ P) → p ∉ tb1.map Prod.fst := by
        intro p hp hk
        rcases hkeys1 p hk with hk0 | hk0 | hk0
        · exact hPfree p hp hk0
        · subst hk0
          rcases hp with rfl | hp'
          · exact hmidP (List.mem_cons_self _ _)
          · exact hmidP (List.mem_cons_of_mem _ hp')
        · have hidp : Relation.TransGen (REdge items) id p := Relation.TransGen.head hedge hk0
          rcases hp with rfl | hp'
          · exact hacyc p hidp
          · exact hacyc p ((hPmeta p hp').2.trans hidp)
      have hfc1 : freeCount items tb1 < fuel + 1 + P.length :=
        lt_of_le_of_lt (freeCount_mono (tbLe_keys hle1)) hfc
      obtain ⟨res, hres⟩ := ih (total + max mat.value md * mq) tb1 hInv1
        (fun p hp => hmats p (List.mem_cons_of_mem _ hp)) hPfree1 hfc1
      refine ⟨res, ?_⟩
      simp only [resolveMats, h1, h2]
      exact hres

theorem suff_ok (items : Catalog) : ∀ fuel, SuffOk items fuel := by
  intro fuel
  induction fuel with
  | zero =>
    intro id tb P _ _ _ hnd _ hP hfc
    exfalso
    have := freeCount_lower hnd (fun p hp => ⟨(hP p hp).1, (hP p hp).2.1⟩)
    omega
  | succ fuel ih =>
    intro id tb P hInv hid hacyc hnd hidP hP hfc
    cases htb : alook tb id with
    | some v => exact ⟨(v, tb), by simp only [resolveF, htb]⟩
    | none =>
      obtain ⟨item, hitem⟩ := alook_of_mem_keys hid
      cases hrec : item.recycles_into with
      | nil => exact ⟨(0, tb ++ [(id, 0)]), by simp only [resolveF, htb, hitem, hrec]⟩
      | cons m rest =>
        have hPmeta : ∀ p ∈ P, p ∈ items.map Prod.fst ∧
            Relation.TransGen (REdge items) p id :=
          fun p hp => ⟨(hP p hp).1, (hP p hp).2.2⟩
        have hPfree : ∀ p, (p = id ∨ p ∈ P) → p ∉ tb.map Prod.fst := by
          intro p hp
          rcases hp with rfl | hp'
          · exact (alook_eq_none tb p).1 htb
          · exact (hP p hp').2.1
        obtain ⟨⟨total, tb2⟩, hmres⟩ := suffMats items fuel ih id item hitem hacyc P hnd hidP
          hid hPmeta item.recycles_into 0 tb hInv (fun p hp => by simpa using hp) hPfree
          (by omega)
        rw [hrec] at hmres
        exact ⟨(total, tb2 ++ [(id, total)]), by simp only [resolveF, htb, hitem, hrec, hmres]⟩

theorem buildLoop_term (items : Catalog)
    (hacyc : ∀ c, ¬ Relation.TransGen (REdge items) c c) :
    ∀ ids tb, TblInv items tb → (∀ id ∈ ids, id ∈ items.map Prod.fst) →
      ∃ table, buildLoop items (items.length + 1) ids tb = some table := by
  intro ids
  induction ids with
  | nil => intro tb _ _; exact ⟨tb, rfl⟩
  | cons id rest ih =>
    intro tb hInv hids
    have hid := hids id (List.mem_cons_self _ _)
    have hfcle := freeCount_le items tb
    obtain ⟨⟨v, tb1⟩, h1⟩ := suff_ok items (items.length + 1) id tb [] hInv hid hacyc
      (by simp) (by simp) (by simp) (by simp only [List.length_nil]; omega)
    obtain ⟨hInv1, _, _, _⟩ := (resolve_ok items (items.length + 1)).1 id tb v tb1 hInv hid h1
    obtain ⟨table, ht⟩ := ih tb1 hInv1 (fun i hi => hids i (List.mem_cons_of_mem _ hi))
    refine ⟨table, ?_⟩
    simp only [buildLoop, h1]
    exact ht

/-- Whether `build_deep_recycle_table` terminates on `items`: some recursion
depth (fuel) suffices.  The Python original, which has no fuel, diverges
exactly when this fails. -/
def BuildTerminates (items : Catalog) : Prop :=
  ∃ fuel table, build_deep_recycle_table items fuel = some table

theorem no_cycle_of_rank {items : Catalog} (rank : String → Nat)
    (h : ∀ a b, REdge items a b → rank b < rank a) :
    ∀ c, ¬ Relation.TransGen (REdge items) c c := by
  have hlt : ∀ a b, Relation.TransGen (REdge items) a b → rank b < rank a := by
    intro a b htg
    induction htg with
    | single h1 => exact h _ _ h1
    | tail _ h1 ih => exact lt_trans (h _ _ h1) ih
  exact fun c hc => lt_irrefl _ (hlt c c hc)

/-! ## Concrete inputs used by the claims (spec §8 worked examples and edge cases) -/

def exItems : Catalog :=
  [ ("weapon", { id := "weapon", name := [("en", "Weapon")], value := 5000,
                 recycles_into := [("mech_comp", 5)] }),
    ("mech_comp", { id := "mech_comp", name := [("en", "Mechanical Component")], value := 640,
                    recycles_into := [("metal", 3), ("rubber", 2)] }),
    ("metal", { id := "metal", name := [("en", "Metal")], value := 75, recycles_into := [] }),
    ("rubber", { id := "rubber", name := [("en", "Rubber")], value := 50,
                 recycles_into := [] }) ]

def exTable : Table := [("metal", 0), ("rubber", 0), ("mech_comp", 325), ("weapon", 3200)]

def exStash : List StashItem :=
  [{ item_id := "weapon", name := "Weapon", quantity := 1, slot_index := 0 }]

/-- A one-item catalog whose single item recycles into itself. -/
def cycItems : Catalog :=
  [("a", { id := "a", name := [("en", "A")], value := 1, recycles_into := [("a", 1)] })]

theorem resolveF_cyc_none : ∀ fuel, resolveF cycItems fuel "a" [] = none := by
  intro fuel
  induction fuel with
  | zero => rfl
  | succ fuel ih =>
    have heq : resolveF cycItems (fuel + 1) "a" [] =
        match (match resolveF cycItems fuel "a" [] with
               | none => none
               | some (md, tb2) =>
                 some (0 + max (1 : Int) md * 1, tb2)) with
        | none => none
        | some (total, tb2) => some (total, tb2 ++ [("a", total)]) := rfl
    rw [heq, ih]

/-- Claim C1: whenever `build_deep_recycle_table` returns a table, that table
has exactly one entry per catalog item id; an item with empty `recycles_into`
has deep value `0`; an item with materials has deep value
`matsSum` — the sum over its materials present in the catalog of
`max(material.value, deep value of the material)` times the yield quantity,
materials absent from the catalog contributing zero. -/
theorem c1_deep_recycle_table (items : Catalog) (fuel : Nat) (table : Table)
    (h : build_deep_recycle_table items fuel = some table) :
    (table.map Prod.fst).Nodup ∧
    (∀ k, k ∈ table.map Prod.fst ↔ k ∈ items.map Prod.fst) ∧
    ∀ id item, alook items id = some item →
      (item.recycles_into = [] → alook table id = some 0) ∧
      (item.recycles_into ≠ [] →
        alook table id = some (matsSum items table item.recycles_into)) := by
  unfold build_deep_recycle_table at h
  obtain ⟨hInv, _, hmem⟩ := buildLoop_ok items fuel (items.map Prod.fst) [] table
    (tblInv_nil items) (fun id h' => h') h
  refine ⟨hInv.nodup, fun k => ⟨hInv.sub k, hmem k⟩, ?_⟩
  intro id item hitem
  have hid : id ∈ table.map Prod.fst := hmem id (keys_of_alook hitem)
  obtain ⟨_, hsome⟩ := hInv.eqns id hid
  obtain ⟨hnil, hcons⟩ := hsome item hitem
  exact ⟨hnil, fun hne => (hcons hne).1⟩

/-- Claim C1, witness: the worked-example catalog instantiates the theorem. -/
theorem c1_deep_recycle_table_witness :
    build_deep_recycle_table exItems 5 = some exTable ∧
    ((exTable.map Prod.fst).Nodup ∧
      (∀ k, k ∈ exTable.map Prod.fst ↔ k ∈ exItems.map Prod.fst) ∧
      ∀ id item, alook exItems id = some item →
        (item.recycles_into = [] → alook exTable id = some 0) ∧
        (item.recycles_into ≠ [] →
          alook exTable id = some (matsSum exItems exTable item.recycles_into))) :=
  ⟨by decide, c1_deep_recycle_table exItems 5 exTable (by decide)⟩

/-- Claim C2, counterexample: on the one-item catalog whose item recycles into
itself, `build_deep_recycle_table` terminates for no recursion depth — the
claim's "terminates on every input, with no restriction on the shape of the
`recycles_into` references" is false (Python's `_resolve` memoizes only after
its recursive calls return, so a cycle recurses forever). -/
theorem c2_counterexample : ¬ BuildTerminates cycItems := by
  rintro ⟨fuel, table, h⟩
  unfold build_deep_recycle_table at h
  have hcalc : buildLoop cycItems fuel ["a"] [] = none := by
    simp only [buildLoop, resolveF_cyc_none fuel]
  rw [show cycItems.map Prod.fst = ["a"] from rfl, hcalc] at h
  cases h

/-- Claim C2, amended: on every catalog whose `recycles_into` references are
acyclic, `build_deep_recycle_table` terminates, and recursion depth
`items.length + 1` — one frame per distinct item, each resolved and memoized
once, plus the top-level frame — always suffices. -/
theorem c2_termination (items : Catalog)
    (hacyc : ∀ c, ¬ Relation.TransGen (REdge items) c c) :
    ∃ table, build_deep_recycle_table items (items.length + 1) = some table := by
  obtain ⟨table, h⟩ := buildLoop_term items hacyc (items.map Prod.fst) []
    (tblInv_nil items) (fun id h' => h')
  exact ⟨table, h⟩

theorem exItems_acyclic : ∀ c, ¬ Relation.TransGen (REdge exItems) c c := by
  apply no_cycle_of_rank
    (fun s => if s = "weapon" then 3 else if s = "mech_comp" then 2 else 1)
  intro a b hedge
  obtain ⟨item, q, mat, ha, hb, -⟩ := hedge
  have hmem : (a, item) ∈ exItems := alook_mem ha
  simp only [exItems, List.mem_cons, List.not_mem_nil, or_false, Prod.mk.injEq] at hmem
  rcases hmem with ⟨rfl, rfl⟩ | ⟨rfl, rfl⟩ | ⟨rfl, rfl⟩ | ⟨rfl, rfl⟩
  · have hb' : (b, q) ∈ [("mech_comp", (5 : Int))] := hb
    simp only [List.mem_cons, List.not_mem_nil, or_false, Prod.mk.injEq] at hb'
    obtain ⟨rfl, rfl⟩ := hb'
    decide
  · have hb' : (b, q) ∈ [("metal", (3 : Int)), ("rubber", 2)] := hb
    simp only [List.mem_cons, List.not_mem_nil, or_false, Prod.mk.injEq] at hb'
    rcases hb' with ⟨rfl, rfl⟩ | ⟨rfl, rfl⟩ <;> decide
  · have hb' : (b, q) ∈ ([] : List (String × Int)) := hb
    simp at hb'
  · have hb' : (b, q) ∈ ([] : List (String × Int)) := hb
    simp at hb' 

/-- Claim C2, witness: the worked-example catalog is acyclic and the amended
theorem applies to it. -/
theorem c2_termination_witness :
    ∃ table, build_deep_recycle_table exItems (exItems.length + 1) = some table :=
  c2_termination exItems exItems_acyclic

/-! ## Characterizing `analyze_optimize` -/

/-- The row that one iteration of the `analyze_optimize` loop appends to the
`action` list for stash item `s` (mirrors the branch structure of `optStep`). -/
def stepRow (items : Catalog) (recycle_table : Table) (hold_set : List String)
    (params : OptimizeParams) (action : String) (s : StashItem) : Option Recommendation :=
  match alook items s.item_id with
  | none => none
  | some item =>
    if s.item_id ∈ hold_set then
      if action = "hold" then some (build_recommendation s item recycle_table "hold") else none
    else
      let sell_value := item.value * s.quantity
      let recycle_value := (alook recycle_table s.item_id).getD 0 * s.quantity
      if |sell_value - recycle_value| < params.min_profit_threshold then none
      else if sell_value > recycle_value then
        if action = "sell" then some (build_recommendation s item recycle_table "sell") else none
      else if recycle_value > sell_value then
        if action = "recycle" then some (build_recommendation s item recycle_table "recycle")
        else none
      else
        if action = "sell" then some (build_recommendation s item recycle_table "sell") else none

theorem optimize_fold (items : Catalog) (recycle_table : Table) (hold_set : List String)
    (params : OptimizeParams) :
    ∀ (stash : List StashItem) (acc : OptAcc),
      stash.foldl (optStep items recycle_table hold_set params) acc =
        { sell_recs := acc.sell_recs ++
            stash.filterMap (stepRow items recycle_table hold_set params "sell")
          recycle_recs := acc.recycle_recs ++
            stash.filterMap (stepRow items recycle_table hold_set params "recycle")
          hold_recs := acc.hold_recs ++
            stash.filterMap (stepRow items recycle_table hold_set params "hold")
          total_sell_value := acc.total_sell_value +
            ((stash.filterMap (stepRow items recycle_table hold_set params "sell")).map
              (fun r => r.sell_value)).sum
          total_recycle_value := acc.total_recycle_value +
            ((stash.filterMap (stepRow items recycle_table hold_set params "recycle")).map
              (fun r => r.recycle_value)).sum } := by
  intro stash
  induction stash with
  | nil => intro acc; simp
  | cons s rest ih =>
    intro acc
    rw [List.foldl_cons, ih]
    cases hit : alook items s.item_id with
    | none =>
      simp only [optStep, stepRow, hit, List.filterMap_cons]
    | some item =>
      by_cases hm : s.item_id ∈ hold_set
      · simp only [optStep, stepRow, hit, if_pos hm, List.filterMap_cons]
        simp [OptAcc.mk.injEq]
      · by_cases hth : |item.value * s.quantity -
            (alook recycle_table s.item_id).getD 0 * s.quantity| < params.min_profit_threshold
        · simp only [optStep, stepRow, hit, if_neg hm, if_pos hth, List.filterMap_cons]
        · by_cases hsr : item.value * s.quantity >
              (alook recycle_table s.item_id).getD 0 * s.quantity
          · simp only [optStep, stepRow, hit, if_neg hm, if_neg hth, if_pos hsr,
              List.filterMap_cons]
            simp [OptAcc.mk.injEq, build_recommendation]
            omega
          · by_cases hrs : (alook recycle_table s.item_id).getD 0 * s.quantity >
                item.value * s.quantity
            · simp only [optStep, stepRow, hit, if_neg hm, if_neg hth, if_neg hsr, if_pos hrs,
                List.filterMap_cons]
              simp [OptAcc.mk.injEq, build_recommendation]
              omega
            · simp only [optStep, stepRow, hit, if_neg hm, if_neg hth, if_neg hsr, if_neg hrs,
                List.filterMap_cons]
              simp [OptAcc.mk.injEq, build_recommendation]
              omega

/-- The spec's per-item decision procedure, worded as the claims word it:
catalog-missing items produce nothing; when `params.quest_aware` is true and
the item id is in the quest hold set the decision is `hold` (no threshold
check); below the profit threshold the item is dropped; otherwise sell wins
strictly, recycle wins strictly, and an exact tie goes to sell. -/
def specDecision (items : Catalog) (recycle_table : Table) (quests : List (String × Quest))
    (params : OptimizeParams) (s : StashItem) : Option String :=
  match alook items s.item_id with
  | none => none
  | some item =>
    if params.quest_aware = true ∧ s.item_id ∈ build_quest_hold_set quests items then
      some "hold"
    else
      let sell_value := item.value * s.quantity
      let recycle_value := (alook recycle_table s.item_id).getD 0 * s.quantity
      if |sell_value - recycle_value| < params.min_profit_threshold then none
      else if sell_value > recycle_value then some "sell"
      else if recycle_value > sell_value then some "recycle"
      else some "sell"

/-- The recommendation row for `s` when the spec's decision is `action`. -/
def specRow (items : Catalog) (recycle_table : Table) (quests : List (String × Quest))
    (params : OptimizeParams) (action : String) (s : StashItem) : Option Recommendation :=
  match alook items s.item_id with
  | none => none
  | some item =>
    if specDecision items recycle_table quests params s = some action then
      some (build_recommendation s item recycle_table action)
    else none

/-- The single recommendation row for `s`, whatever its action. -/
def specAnyRow (items : Catalog) (recycle_table : Table) (quests : List (String × Quest))
    (params : OptimizeParams) (s : StashItem) : Option Recommendation :=
  match specDecision items recycle_table quests params s with
  | none => none
  | some a => specRow items recycle_table quests params a s

theorem stepRow_eq_specRow (items : Catalog) (recycle_table : Table)
    (quests : List (String × Quest)) (params : OptimizeParams) (action : String)
    (s : StashItem) :
    stepRow items recycle_table
      (if params.quest_aware then build_quest_hold_set quests items else []) params action s =
    specRow items recycle_table quests params action s := by
  unfold stepRow specRow specDecision
  cases hit : alook items s.item_id with
  | none => rfl
  | some item =>
    dsimp only
    have hmem : (s.item_id ∈
          (if params.quest_aware then build_quest_hold_set quests items else [])) ↔
        (params.quest_aware = true ∧ s.item_id ∈ build_quest_hold_set quests items) := by
      cases params.quest_aware <;> simp
    by_cases hm : params.quest_aware = true ∧ s.item_id ∈ build_quest_hold_set quests items
    · rw [if_pos (hmem.2 hm), if_pos hm]
      by_cases ha : action = "hold"
      · simp [ha]
      · simp only [if_neg ha]
        exact (if_neg (fun h => ha (Option.some.inj h).symm)).symm
    · rw [if_neg (fun h => hm (hmem.1 h)), if_neg hm]
      by_cases hth : |item.value * s.quantity -
          (alook recycle_table s.item_id).getD 0 * s.quantity| < params.min_profit_threshold
      · simp [hth]
      · by_cases hsr : item.value * s.quantity >
            (alook recycle_table s.item_id).getD 0 * s.quantity
        · simp only [if_neg hth, if_pos hsr]
          by_cases ha : action = "sell"
          · simp [ha]
          · simp only [if_neg ha]
            exact (if_neg (fun h => ha (Option.some.inj h).symm)).symm
        · by_cases hrs : (alook recycle_table s.item_id).getD 0 * s.quantity >
              item.value * s.quantity
          · simp only [if_neg hth, if_neg hsr, if_pos hrs]
            by_cases ha : action = "recycle"
            · simp [ha]
            · simp only [if_neg ha]
              exact (if_neg (fun h => ha (Option.some.inj h).symm)).symm
          · simp only [if_neg hth, if_neg hsr, if_neg hrs]
            by_cases ha : action = "sell"
            · simp [ha]
            · simp only [if_neg ha]
              exact (if_neg (fun h => ha (Option.some.inj h).symm)).symm

theorem analyze_optimize_eq (stash : List StashItem) (items : Catalog) (recycle_table : Table)
    (quests : List (String × Quest)) (params : OptimizeParams) :
    analyze_optimize stash items recycle_table quests params =
      { sell := pySort (fun a b => b.sell_value ≤ a.sell_value)
          (stash.filterMap (specRow items recycle_table quests params "sell"))
        recycle := pySort (fun a b => a.margin ≤ b.margin)
          (stash.filterMap (specRow items recycle_table quests params "recycle"))
        hold := pySort (fun a b => a.name ≤ b.name)
          (stash.filterMap (specRow items recycle_table quests params "hold"))
        total_sell_value :=
          ((stash.filterMap (specRow items recycle_table quests params "sell")).map
            (fun r => r.sell_value)).sum
        total_recycle_value :=
          ((stash.filterMap (specRow items recycle_table quests params "recycle")).map
            (fun r => r.recycle_value)).sum
        total_hold_count :=
          (stash.filterMap (specRow items recycle_table quests params "hold")).length } := by
  unfold analyze_optimize
  dsimp only
  rw [optimize_fold]
  have hrw : ∀ a, stepRow items recycle_table
      (if params.quest_aware then build_quest_hold_set quests items else []) params a =
      specRow items recycle_table quests params a := by
    intro a
    funext s
    exact stepRow_eq_specRow items recycle_table quests params a s
  simp [hrw]

theorem specRow_of_decision_ne (items : Catalog) (recycle_table : Table)
    (quests : List (String × Quest)) (params : OptimizeParams) (s : StashItem) {a : String}
    (h : specDecision items recycle_table quests params s ≠ some a) :
    specRow items recycle_table quests params a s = none := by
  unfold specRow
  cases hit : alook items s.item_id with
  | none => rfl
  | some item =>
    dsimp only
    rw [if_neg h]

theorem specDecision_some_item {items : Catalog} {recycle_table : Table}
    {quests : List (String × Quest)} {params : OptimizeParams} {s : StashItem} {act : String}
    (h : specDecision items recycle_table quests params s = some act) :
    ∃ item, alook items s.item_id = some item := by
  unfold specDecision at h
  cases hit : alook items s.item_id with
  | none => rw [hit] at h; cases h
  | some item => exact ⟨item, rfl⟩

theorem specRow_of_decision_eq {items : Catalog} {recycle_table : Table}
    {quests : List (String × Quest)} {params : OptimizeParams} {s : StashItem} {act : String}
    (h : specDecision items recycle_table quests params s = some act) :
    ∃ item, alook items s.item_id = some item ∧
      specRow items recycle_table quests params act s =
        some (build_recommendation s item recycle_table act) := by
  obtain ⟨item, hit⟩ := specDecision_some_item h
  refine ⟨item, hit, ?_⟩
  unfold specRow
  rw [hit]
  dsimp only
  rw [if_pos h]

theorem specDecision_values {items : Catalog} {recycle_table : Table}
    {quests : List (String × Quest)} {params : OptimizeParams} {s : StashItem} {act : String}
    (h : specDecision items recycle_table quests params s = some act) :
    act = "sell" ∨ act = "recycle" ∨ act = "hold" := by
  unfold specDecision at h
  cases hit : alook items s.item_id with
  | none => rw [hit] at h; cases h
  | some item =>
    rw [hit] at h
    dsimp only at h
    split_ifs at h <;> simp_all

theorem specRow_action {items : Catalog} {recycle_table : Table}
    {quests : List (String × Quest)} {params : OptimizeParams} {s : StashItem} {a : String}
    {rec : Recommendation}
    (h : specRow items recycle_table quests params a s = some rec) : rec.action = a := by
  unfold specRow at h
  cases hit : alook items s.item_id with
  | none => rw [hit] at h; cases h
  | some item =>
    rw [hit] at h
    dsimp only at h
    by_cases hc : specDecision items recycle_table quests params s = some a
    · rw [if_pos hc] at h
      injection h with h1
      rw [← h1]
      rfl
    · rw [if_neg hc] at h
      cases h

theorem specRow_pointwise (items : Catalog) (recycle_table : Table)
    (quests : List (String × Quest)) (params : OptimizeParams) (s : StashItem) :
    (specAnyRow items recycle_table quests params s =
        specRow items recycle_table quests params "sell" s ∧
      specRow items recycle_table quests params "recycle" s = none ∧
      specRow items recycle_table quests params "hold" s = none) ∨
    (specAnyRow items recycle_table quests params s =
        specRow items recycle_table quests params "recycle" s ∧
      specRow items recycle_table quests params "sell" s = none ∧
      specRow items recycle_table quests params "hold" s = none) ∨
    (specAnyRow items recycle_table quests params s =
        specRow items recycle_table quests params "hold" s ∧
      specRow items recycle_table quests params "sell" s = none ∧
      specRow items recycle_table quests params "recycle" s = none) := by
  cases hd : specDecision items recycle_table quests params s with
  | none =>
    left
    have hr : ∀ a, specRow items recycle_table quests params a s = none := fun a =>
      specRow_of_decision_ne items recycle_table quests params s (by simp [hd])
    refine ⟨?_, hr "recycle", hr "hold"⟩
    unfold specAnyRow
    rw [hd, hr "sell"]
  | some act =>
    have hany : specAnyRow items recycle_table quests params s =
        specRow items recycle_table quests params act s := by
      unfold specAnyRow
      rw [hd]
    rcases specDecision_values hd with rfl | rfl | rfl
    · exact Or.inl ⟨hany,
        specRow_of_decision_ne items recycle_table quests params s (by simp [hd]),
        specRow_of_decision_ne items recycle_table quests params s (by simp [hd])⟩
    · exact Or.inr (Or.inl ⟨hany,
        specRow_of_decision_ne items recycle_table quests params s (by simp [hd]),
        specRow_of_decision_ne items recycle_table quests params s (by simp [hd])⟩)
    · exact Or.inr (Or.inr ⟨hany,
        specRow_of_decision_ne items recycle_table quests params s (by simp [hd]),
        specRow_of_decision_ne items recycle_table quests params s (by simp [hd])⟩)

theorem filterMap_three_partition {α β : Type} (A B C D : α → Option β)
    (h : ∀ s, (D s = A s ∧ B s = none ∧ C s = none) ∨
      (D s = B s ∧ A s = none ∧ C s = none) ∨
      (D s = C s ∧ A s = none ∧ B s = none)) :
    ∀ l : List α, (l.filterMap A ++ l.filterMap B ++ l.filterMap C).Perm (l.filterMap D) := by
  intro l
  induction l with
  | nil => simp
  | cons s rest ih =>
    rcases h s with ⟨hD, hB, hC⟩ | ⟨hD, hA, hC⟩ | ⟨hD, hA, hB⟩
    · cases hA : A s with
      | none =>
        simp only [List.filterMap_cons, hA, hB, hC, hD.trans hA]
        exact ih
      | some a =>
        simp only [List.filterMap_cons, hA, hB, hC, hD.trans hA]
        exact ih.cons a
    · cases hB : B s with
      | none =>
        simp only [List.filterMap_cons, hA, hB, hC, hD.trans hB]
        exact ih
      | some b =>
        simp only [List.filterMap_cons, hA, hB, hC, hD.trans hB]
        have h1 : (rest.filterMap A ++ b :: rest.filterMap B ++ rest.filterMap C).Perm
            (b :: (rest.filterMap A ++ rest.filterMap B ++ rest.filterMap C)) := by
          have h2 : rest.filterMap A ++ b :: rest.filterMap B ++ rest.filterMap C =
              rest.filterMap A ++ b :: (rest.filterMap B ++ rest.filterMap C) := by
            simp [List.append_assoc]
          rw [h2, List.append_assoc]
          exact List.perm_middle
        exact h1.trans (ih.cons b)
    · cases hC : C s with
      | none =>
        simp only [List.filterMap_cons, hA, hB, hC, hD.trans hC]
        exact ih
      | some c =>
        simp only [List.filterMap_cons, hA, hB, hC, hD.trans hC]
        exact List.perm_middle.trans (ih.cons c)

/-- The claim's notion of a qualifying stash item: known to the catalog, and
either quest-held or with full-stack margin at or above the profit threshold. -/
def Qualifies (items : Catalog) (recycle_table : Table) (quests : List (String × Quest))
    (params : OptimizeParams) (s : StashItem) : Prop :=
  ∃ item, alook items s.item_id = some item ∧
    ((params.quest_aware = true ∧ s.item_id ∈ build_quest_hold_set quests items) ∨
      params.min_profit_threshold ≤
        |item.value * s.quantity - (alook recycle_table s.item_id).getD 0 * s.quantity|)

theorem specDecision_isSome_iff (items : Catalog) (recycle_table : Table)
    (quests : List (String × Quest)) (params : OptimizeParams) (s : StashItem) :
    (specDecision items recycle_table quests params s).isSome ↔
      Qualifies items recycle_table quests params s := by
  unfold specDecision Qualifies
  cases hit : alook items s.item_id with
  | none => simp
  | some item =>
    dsimp only
    by_cases h1 : params.quest_aware = true ∧ s.item_id ∈ build_quest_hold_set quests items
    · simp only [if_pos h1, Option.isSome_some, true_iff]
      exact ⟨item, rfl, Or.inl h1⟩
    · rw [if_neg h1]
      by_cases hth : |item.value * s.quantity -
          (alook recycle_table s.item_id).getD 0 * s.quantity| < params.min_profit_threshold
      · simp only [if_pos hth, Option.isSome_none, Bool.false_eq_true, false_iff]
        rintro ⟨item', hi, hc⟩
        injection hi with h
        subst h
        rcases hc with hc | hc
        · exact h1 hc
        · exact absurd hth (not_lt.2 hc)
      · rw [if_neg hth]
        have hq : ∃ item', (some item : Option Item) = some item' ∧
            ((params.quest_aware = true ∧ s.item_id ∈ build_quest_hold_set quests items) ∨
              params.min_profit_threshold ≤ |item'.value * s.quantity -
                (alook recycle_table s.item_id).getD 0 * s.quantity|) :=
          ⟨item, rfl, Or.inr (not_lt.1 hth)⟩
        split_ifs <;> simpa using hq

theorem specAnyRow_isSome_iff (items : Catalog) (recycle_table : Table)
    (quests : List (String × Quest)) (params : OptimizeParams) (s : StashItem) :
    (specAnyRow items recycle_table quests params s).isSome ↔
      Qualifies items recycle_table quests params s := by
  rw [← specDecision_isSome_iff items recycle_table quests params s]
  unfold specAnyRow
  cases hd : specDecision items recycle_table quests params s with
  | none => simp
  | some act =>
    obtain ⟨item, _, hrow⟩ := specRow_of_decision_eq hd
    simp [hrow]

/-- Claim C3: per-item behavior of `analyze_optimize`, in order: a stash item
whose id is not in the catalog produces no output row; if `params.quest_aware`
is true and the id is in the quest hold set, a hold row is emitted and the
profit-threshold filter is bypassed; otherwise an item whose full-stack
`|sell_value - recycle_value|` is strictly below `min_profit_threshold`
appears in no output list; otherwise sell wins strictly, recycle wins
strictly, and an exact tie goes to sell.  (`specDecision` is that decision
procedure verbatim; the engine's three lists are, up to the documented
sorting, exactly the rows of the items `specDecision` routes to each.) -/
theorem c3_optimize_per_item (stash : List StashItem) (items : Catalog)
    (recycle_table : Table) (quests : List (String × Quest)) (params : OptimizeParams) :
    ((analyze_optimize stash items recycle_table quests params).sell).Perm
      (stash.filterMap (specRow items recycle_table quests params "sell")) ∧
    ((analyze_optimize stash items recycle_table quests params).recycle).Perm
      (stash.filterMap (specRow items recycle_table quests params "recycle")) ∧
    ((analyze_optimize stash items recycle_table quests params).hold).Perm
      (stash.filterMap (specRow items recycle_table quests params "hold")) := by
  rw [analyze_optimize_eq]
  exact ⟨pySort_perm _ _, pySort_perm _ _, pySort_perm _ _⟩

/-- Claim C4: the three output lists of `analyze_optimize` partition the
qualifying stash items — every list carries only its own action, the
concatenation of the three lists is (a permutation of) the one-row-per-item
list over the stash, and an item gets a row exactly when it qualifies
(catalog-known, and quest-held or at/above the threshold). -/
theorem c4_partition (stash : List StashItem) (items : Catalog) (recycle_table : Table)
    (quests : List (String × Quest)) (params : OptimizeParams) :
    (∀ rec ∈ (analyze_optimize stash items recycle_table quests params).sell,
      rec.action = "sell") ∧
    (∀ rec ∈ (analyze_optimize stash items recycle_table quests params).recycle,
      rec.action = "recycle") ∧
    (∀ rec ∈ (analyze_optimize stash items recycle_table quests params).hold,
      rec.action = "hold") ∧
    ((analyze_optimize stash items recycle_table quests params).sell ++
      (analyze_optimize stash items recycle_table quests params).recycle ++
      (analyze_optimize stash items recycle_table quests params).hold).Perm
        (stash.filterMap (specAnyRow items recycle_table quests params)) ∧
    (∀ s, (specAnyRow items recycle_table quests params s).isSome ↔
      Qualifies items recycle_table quests params s) := by
  obtain ⟨hps, hpr, hph⟩ := c3_optimize_per_item stash items recycle_table quests params
  have hact : ∀ a rec, rec ∈ stash.filterMap (specRow items recycle_table quests params a) →
      rec.action = a := by
    intro a rec hr
    obtain ⟨s, _, hrow⟩ := List.mem_filterMap.1 hr
    exact specRow_action hrow
  refine ⟨fun rec hr => hact "sell" rec (hps.subset hr),
    fun rec hr => hact "recycle" rec (hpr.subset hr),
    fun rec hr => hact "hold" rec (hph.subset hr), ?_, fun s =>
      specAnyRow_isSome_iff items recycle_table quests params s⟩
  refine (((hps.append hpr).append hph).trans ?_)
  exact filterMap_three_partition _ _ _ _
    (specRow_pointwise items recycle_table quests params) stash

/-- Claim C9: the optimizer's sell list is sorted descending by `sell_value`,
the recycle list ascending by `margin`, the hold list alphabetically by
display name; `total_sell_value` and `total_recycle_value` are the sums over
the respective lists, and `total_hold_count` is the hold list's length. -/
theorem c9_sorts_and_totals (stash : List StashItem) (items : Catalog)
    (recycle_table : Table) (quests : List (String × Quest)) (params : OptimizeParams) :
    ((analyze_optimize stash items recycle_table quests params).sell.Pairwise
      (fun a b => b.sell_value ≤ a.sell_value)) ∧
    ((analyze_optimize stash items recycle_table quests params).recycle.Pairwise
      (fun a b => a.margin ≤ b.margin)) ∧
    ((analyze_optimize stash items recycle_table quests params).hold.Pairwise
      (fun a b => a.name ≤ b.name)) ∧
    (analyze_optimize stash items recycle_table quests params).total_sell_value =
      (((analyze_optimize stash items recycle_table quests params).sell).map
        (fun r => r.sell_value)).sum ∧
    (analyze_optimize stash items recycle_table quests params).total_recycle_value =
      (((analyze_optimize stash items recycle_table quests params).recycle).map
        (fun r => r.recycle_value)).sum ∧
    (analyze_optimize stash items recycle_table quests params).total_hold_count =
      ((analyze_optimize stash items recycle_table quests params).hold).length := by
  rw [analyze_optimize_eq]
  dsimp only
  refine ⟨?_, ?_, ?_, ?_, ?_, ?_⟩
  · refine (pySort_pairwise ?_ ?_ _).imp (fun h => of_decide_eq_true h)
    · intro a b
      simp only [decide_eq_true_eq]
      exact le_total _ _
    · intro a b c
      simp only [decide_eq_true_eq]
      exact fun h1 h2 => le_trans h2 h1
  · refine (pySort_pairwise ?_ ?_ _).imp (fun h => of_decide_eq_true h)
    · intro a b
      simp only [decide_eq_true_eq]
      exact le_total _ _
    · intro a b c
      simp only [decide_eq_true_eq]
      exact fun h1 h2 => le_trans h1 h2
  · refine (pySort_pairwise ?_ ?_ _).imp (fun h => of_decide_eq_true h)
    · intro a b
      simp only [decide_eq_true_eq]
      exact le_total _ _
    · intro a b c
      simp only [decide_eq_true_eq]
      exact fun h1 h2 => le_trans h1 h2
  · exact (((pySort_perm _ _).map (fun r : Recommendation => r.sell_value)).sum_eq).symm
  · exact (((pySort_perm _ _).map (fun r : Recommendation => r.recycle_value)).sum_eq).symm
  · exact ((pySort_perm _ _).length_eq).symm

/-! ## Characterizing `_build_quest_hold_set` -/

theorem mem_foldl_append {α β : Type} (F : β → List α) :
    ∀ (l : List β) (init : List α) (x : α),
      (x ∈ l.foldl (fun acc b => acc ++ F b) init) ↔ x ∈ init ∨ ∃ b ∈ l, x ∈ F b := by
  intro l
  induction l with
  | nil => simp
  | cons b rest ih =>
    intro init x
    rw [List.foldl_cons, ih]
    simp only [List.mem_append, List.mem_cons]
    constructor
    · rintro ((h | h) | ⟨b', hb', hx⟩)
      · exact Or.inl h
      · exact Or.inr ⟨b, Or.inl rfl, h⟩
      · exact Or.inr ⟨b', Or.inr hb', hx⟩
    · rintro (h | ⟨b', rfl | hb', hx⟩)
      · exact Or.inl (Or.inl h)
      · exact Or.inl (Or.inr hx)
      · exact Or.inr ⟨b', hb', hx⟩

/-- The items an objective's text pulls into the hold set. -/
def objectiveHits (items : Catalog) (obj : List (String × String)) : List String :=
  items.filterMap (fun ip =>
    let item_name := lowerStr (nameGet ip.2.name "en" "")
    if item_name.data ≠ [] ∧
        strHas item_name.data (lowerStr (nameGet obj "en" "")).data = true
    then some ip.1 else none)

theorem mem_build_quest_hold_set (quests : List (String × Quest)) (items : Catalog)
    (x : String) :
    x ∈ build_quest_hold_set quests items ↔
      ∃ qp ∈ quests,
        (∃ iq ∈ qp.2.granted_item_ids, iq.item_id = x) ∨
        (∃ iq ∈ qp.2.reward_item_ids, iq.item_id = x) ∨
        (∃ obj ∈ qp.2.objectives, ∃ ip ∈ items, ip.1 = x ∧
          (lowerStr (nameGet ip.2.name "en" "")).data ≠ [] ∧
          strHas (lowerStr (nameGet ip.2.name "en" "")).data
            (lowerStr (nameGet obj "en" "")).data = true) := by
  have hobj : ∀ (obj : List (String × String)) (y : String),
      y ∈ objectiveHits items obj ↔ ∃ ip ∈ items, ip.1 = y ∧
        (lowerStr (nameGet ip.2.name "en" "")).data ≠ [] ∧
        strHas (lowerStr (nameGet ip.2.name "en" "")).data
          (lowerStr (nameGet obj "en" "")).data = true := by
    intro obj y
    unfold objectiveHits
    simp only [List.mem_filterMap, Option.ite_none_right_eq_some, Option.some.injEq]
    constructor
    · rintro ⟨ip, hip, ⟨hne, hhas⟩, rfl⟩
      exact ⟨ip, hip, rfl, hne, hhas⟩
    · rintro ⟨ip, hip, rfl, hne, hhas⟩
      exact ⟨ip, hip, ⟨hne, hhas⟩, rfl⟩
  suffices h : ∀ (qs : List (String × Quest)) (init : List String),
      x ∈ qs.foldl (fun hold_set qp =>
        qp.2.objectives.foldl (fun hs obj => hs ++ objectiveHits items obj)
          ((hold_set ++ qp.2.granted_item_ids.map (fun iq => iq.item_id)) ++
            qp.2.reward_item_ids.map (fun iq => iq.item_id))) init ↔
      x ∈ init ∨ ∃ qp ∈ qs,
        (∃ iq ∈ qp.2.granted_item_ids, iq.item_id = x) ∨
        (∃ iq ∈ qp.2.reward_item_ids, iq.item_id = x) ∨
        (∃ obj ∈ qp.2.objectives, ∃ ip ∈ items, ip.1 = x ∧
          (lowerStr (nameGet ip.2.name "en" "")).data ≠ [] ∧
          strHas (lowerStr (nameGet ip.2.name "en" "")).data
            (lowerStr (nameGet obj "en" "")).data = true) by
    have := h quests []
    simpa [build_quest_hold_set, objectiveHits] using this
  intro qs
  induction qs with
  | nil => simp
  | cons qp rest ih =>
    intro init
    rw [List.foldl_cons, ih]
    rw [mem_foldl_append (objectiveHits items) qp.2.objectives]
    simp only [List.mem_append, List.mem_map, List.mem_cons]
    constructor
    · rintro ((((h | ⟨iq, hiq, rfl⟩) | ⟨iq, hiq, rfl⟩) | ⟨obj, hobj', hx⟩) | ⟨qp', hqp', hc⟩)
      · exact Or.inl h
      · exact Or.inr ⟨qp, Or.inl rfl, Or.inl ⟨iq, hiq, rfl⟩⟩
      · exact Or.inr ⟨qp, Or.inl rfl, Or.inr (Or.inl ⟨iq, hiq, rfl⟩)⟩
      · exact Or.inr ⟨qp, Or.inl rfl, Or.inr (Or.inr ⟨obj, hobj', (hobj obj x).1 hx⟩)⟩
      · exact Or.inr ⟨qp', Or.inr hqp', hc⟩
    · rintro (h | ⟨qp', rfl | hqp', hc⟩)
      · exact Or.inl (Or.inl (Or.inl (Or.inl h)))
      · rcases hc with ⟨iq, hiq, rfl⟩ | ⟨iq, hiq, rfl⟩ | ⟨obj, hobj', hrest⟩
        · exact Or.inl (Or.inl (Or.inl (Or.inr ⟨iq, hiq, rfl⟩)))
        · exact Or.inl (Or.inl (Or.inr ⟨iq, hiq, rfl⟩))
        · exact Or.inl (Or.inr ⟨obj, hobj', (hobj obj x).2 hrest⟩)
      · exact Or.inr ⟨qp', hqp', hc⟩

/-- A catalog with a single item whose English display name is empty. -/
def c5Items : Catalog :=
  [("i1", { id := "i1", name := [("en", "")], value := 1, recycles_into := [] })]

/-- One quest with one objective and no reward/granted item ids. -/
def c5Quests : List (String × Quest) :=
  [("q1", { id := "q1", objectives := [[("en", "x")]],
            reward_item_ids := [], granted_item_ids := [] })]

/-- Claim C5, counterexample: the claim's third membership rule — the item's
lower-cased English display name appears as a substring of a quest objective's
lower-cased English text — holds for an item whose display name is empty (the
empty string is a substring of every string), yet `_build_quest_hold_set`
does not include it: the code additionally requires the name to be non-empty
(`if item_name and item_name in objective_text`). -/
theorem c5_counterexample :
    (∃ qp ∈ c5Quests, ∃ obj ∈ qp.2.objectives, ∃ ip ∈ c5Items, ip.1 = "i1" ∧
      strHas (lowerStr (nameGet ip.2.name "en" "")).data
        (lowerStr (nameGet obj "en" "")).data = true) ∧
    "i1" ∉ build_quest_hold_set c5Quests c5Items := by
  constructor
  · decide
  · decide

/-- Claim C5, amended: `_build_quest_hold_set` returns exactly the union of
the quests' `granted_item_ids`, the quests' `reward_item_ids`, and the catalog
items whose lower-cased English display name is non-empty and appears as a
substring of some quest objective's lower-cased English text. -/
theorem c5_hold_set (quests : List (String × Quest)) (items : Catalog) (x : String) :
    x ∈ build_quest_hold_set quests items ↔
      (∃ qp ∈ quests, ∃ iq ∈ qp.2.granted_item_ids, iq.item_id = x) ∨
      (∃ qp ∈ quests, ∃ iq ∈ qp.2.reward_item_ids, iq.item_id = x) ∨
      (∃ qp ∈ quests, ∃ obj ∈ qp.2.objectives, ∃ ip ∈ items, ip.1 = x ∧
        (lowerStr (nameGet ip.2.name "en" "")).data ≠ [] ∧
        strHas (lowerStr (nameGet ip.2.name "en" "")).data
          (lowerStr (nameGet obj "en" "")).data = true) := by
  rw [mem_build_quest_hold_set]
  constructor
  · rintro ⟨qp, hqp, h | h | h⟩
    · exact Or.inl ⟨qp, hqp, h⟩
    · exact Or.inr (Or.inl ⟨qp, hqp, h⟩)
    · exact Or.inr (Or.inr ⟨qp, hqp, h⟩)
  · rintro (⟨qp, hqp, h⟩ | ⟨qp, hqp, h⟩ | ⟨qp, hqp, h⟩)
    · exact ⟨qp, hqp, Or.inl h⟩
    · exact ⟨qp, hqp, Or.inr (Or.inl h)⟩
    · exact ⟨qp, hqp, Or.inr (Or.inr h)⟩

/-! ## Characterizing the classifiers -/

theorem analyze_sell_mem (stash : List StashItem) (items : Catalog) (recycle_table : Table)
    (hv : ∀ p ∈ items, 0 ≤ (p : String × Item).2.value) (rec : Recommendation) :
    rec ∈ analyze_sell stash items recycle_table ↔
      ∃ s ∈ stash, ∃ item, alook items s.item_id = some item ∧ 0 < item.value ∧
        (alook recycle_table s.item_id).getD 0 * s.quantity < item.value * s.quantity ∧
        rec = build_recommendation s item recycle_table "sell" := by
  unfold analyze_sell
  dsimp only
  rw [(pySort_perm _ _).mem_iff, List.mem_filterMap]
  constructor
  · rintro ⟨s, hs, hrow⟩
    rcases hit : alook items s.item_id with _ | item
    · rw [hit] at hrow; cases hrow
    · rw [hit] at hrow
      dsimp only at hrow
      by_cases hz : item.value = 0
      · rw [if_pos hz] at hrow; cases hrow
      · rw [if_neg hz] at hrow
        by_cases hgt : item.value * s.quantity >
            (alook recycle_table s.item_id).getD 0 * s.quantity
        · rw [if_pos hgt] at hrow
          injection hrow with h
          have hpos : 0 < item.value :=
            lt_of_le_of_ne (hv (s.item_id, item) (alook_mem hit)) (Ne.symm hz)
          exact ⟨s, hs, item, hit, hpos, hgt, h.symm⟩
        · rw [if_neg hgt] at hrow; cases hrow
  · rintro ⟨s, hs, item, hit, hpos, hgt, rfl⟩
    refine ⟨s, hs, ?_⟩
    rw [hit]
    dsimp only
    rw [if_neg (fun h => absurd hpos (by rw [h]; exact lt_irrefl 0)), if_pos hgt]

theorem analyze_sell_sorted (stash : List StashItem) (items : Catalog)
    (recycle_table : Table) :
    (analyze_sell stash items recycle_table).Pairwise
      (fun a b => b.sell_value ≤ a.sell_value) := by
  unfold analyze_sell
  dsimp only
  refine (pySort_pairwise ?_ ?_ _).imp (fun h => of_decide_eq_true h)
  · intro a b
    simp only [decide_eq_true_eq]
    exact le_total _ _
  · intro a b c
    simp only [decide_eq_true_eq]
    exact fun h1 h2 => le_trans h2 h1

theorem analyze_recycle_mem (stash : List StashItem) (items : Catalog)
    (recycle_table : Table) (rec : Recommendation) :
    rec ∈ analyze_recycle stash items recycle_table ↔
      ∃ s ∈ stash, ∃ item, alook items s.item_id = some item ∧
        item.recycles_into ≠ [] ∧
        item.value * s.quantity < (alook recycle_table s.item_id).getD 0 * s.quantity ∧
        rec = build_recommendation s item recycle_table "recycle" := by
  unfold analyze_recycle
  dsimp only
  rw [(pySort_perm _ _).mem_iff, List.mem_filterMap]
  constructor
  · rintro ⟨s, hs, hrow⟩
    rcases hit : alook items s.item_id with _ | item
    · rw [hit] at hrow; cases hrow
    · rw [hit] at hrow
      dsimp only at hrow
      rcases hrec : item.recycles_into with _ | ⟨m, rest⟩
      · rw [hrec] at hrow; cases hrow
      · rw [hrec] at hrow
        dsimp only at hrow
        by_cases hgt : (alook recycle_table s.item_id).getD 0 * s.quantity >
            item.value * s.quantity
        · rw [if_pos hgt] at hrow
          injection hrow with h
          exact ⟨s, hs, item, hit, by rw [hrec]; exact List.cons_ne_nil m rest, hgt, h.symm⟩
        · rw [if_neg hgt] at hrow; cases hrow
  · rintro ⟨s, hs, item, hit, hne, hgt, rfl⟩
    refine ⟨s, hs, ?_⟩
    rw [hit]
    dsimp only
    rcases hrec : item.recycles_into with _ | ⟨m, rest⟩
    · exact absurd hrec hne
    · dsimp only
      rw [if_pos hgt]

theorem analyze_recycle_sorted (stash : List StashItem) (items : Catalog)
    (recycle_table : Table) :
    (analyze_recycle stash items recycle_table).Pairwise
      (fun a b => a.margin ≤ b.margin) := by
  unfold analyze_recycle
  dsimp only
  refine (pySort_pairwise ?_ ?_ _).imp (fun h => of_decide_eq_true h)
  · intro a b
    simp only [decide_eq_true_eq]
    exact le_total _ _
  · intro a b c
    simp only [decide_eq_true_eq]
    exact fun h1 h2 => le_trans h1 h2

/-- Claim C6: `analyze_sell` includes a catalog-known stash item iff its
catalog value is strictly positive (given the data model's non-negative
values, the code's `value == 0` skip is exactly this) and the full-stack sell
value strictly beats the recycle value, sorted descending by `sell_value`;
`analyze_recycle` includes an item iff it has at least one recycle material
and the recycle value strictly beats the sell value, sorted ascending by
`margin`; and on the spec's worked example the deep table is
`{metal 0, rubber 0, mech_comp 325, weapon 3200}` and `analyze_sell` returns
exactly one row with `sell_value = 5000` and `recycle_value = 3200`. -/
theorem c6_classifiers :
    (∀ (stash : List StashItem) (items : Catalog) (recycle_table : Table)
        (rec : Recommendation), (∀ p ∈ items, 0 ≤ (p : String × Item).2.value) →
      (rec ∈ analyze_sell stash items recycle_table ↔
        ∃ s ∈ stash, ∃ item, alook items s.item_id = some item ∧ 0 < item.value ∧
          (alook recycle_table s.item_id).getD 0 * s.quantity < item.value * s.quantity ∧
          rec = build_recommendation s item recycle_table "sell")) ∧
    (∀ (stash : List StashItem) (items : Catalog) (recycle_table : Table),
      (analyze_sell stash items recycle_table).Pairwise
        (fun a b => b.sell_value ≤ a.sell_value)) ∧
    (∀ (stash : List StashItem) (items : Catalog) (recycle_table : Table)
        (rec : Recommendation),
      rec ∈ analyze_recycle stash items recycle_table ↔
        ∃ s ∈ stash, ∃ item, alook items s.item_id = some item ∧
          item.recycles_into ≠ [] ∧
          item.value * s.quantity < (alook recycle_table s.item_id).getD 0 * s.quantity ∧
          rec = build_recommendation s item recycle_table "recycle") ∧
    (∀ (stash : List StashItem) (items : Catalog) (recycle_table : Table),
      (analyze_recycle stash items recycle_table).Pairwise
        (fun a b => a.margin ≤ b.margin)) ∧
    build_deep_recycle_table exItems 5 = some exTable ∧
    analyze_sell exStash exItems exTable =
      [{ item_id := "weapon", name := "Weapon", quantity := 1, sell_value := 5000,
         recycle_value := 3200, margin := 1800, action := "sell" }] :=
  ⟨fun stash items recycle_table rec hv => analyze_sell_mem stash items recycle_table hv rec,
    analyze_sell_sorted,
    analyze_recycle_mem,
    analyze_recycle_sorted,
    by decide,
    by decide⟩

/-- Claim C6, witness: the membership characterization instantiated on the
worked example (its single hypothesis, non-negative catalog values, holds
there by computation). -/
theorem c6_classifiers_witness :
    (∀ p ∈ exItems, 0 ≤ (p : String × Item).2.value) ∧
    ({ item_id := "weapon", name := "Weapon", quantity := 1, sell_value := 5000,
       recycle_value := 3200, margin := 1800, action := "sell" : Recommendation } ∈
        analyze_sell exStash exItems exTable ↔
      ∃ s ∈ exStash, ∃ item, alook exItems s.item_id = some item ∧ 0 < item.value ∧
        (alook exTable s.item_id).getD 0 * s.quantity < item.value * s.quantity ∧
        ({ item_id := "weapon", name := "Weapon", quantity := 1, sell_value := 5000,
           recycle_value := 3200, margin := 1800, action := "sell" : Recommendation } =
          build_recommendation s item exTable "sell")) :=
  ⟨by decide, c6_classifiers.1 exStash exItems exTable _ (by decide)⟩

def exRow : Recommendation :=
  { item_id := "weapon", name := "Weapon", quantity := 1, sell_value := 5000,
    recycle_value := 3200, margin := 1800, action := "sell" }

/-- Claim C4, witness: on the worked example the weapon's row is in the sell
list and the theorem labels it `sell`. -/
theorem c4_partition_witness : exRow.action = "sell" :=
  (c4_partition exStash exItems exTable []
    { quest_aware := true, min_profit_threshold := 0,
      include_hideout := false, include_projects := false }).1 exRow (by decide)

/-! ## Characterizing `_resolve_item_by_name` -/

theorem leadMatch_refl : ∀ l : List Char, leadMatch l l = true := by
  intro l
  induction l with
  | nil => rfl
  | cons c rest ih => simp [leadMatch, ih]

theorem strHas_refl : ∀ l : List Char, strHas l l = true := by
  intro l
  cases l with
  | nil => rfl
  | cons c rest => simp [strHas, leadMatch_refl]

/-- Claim C8: `_resolve_item_by_name` on the trimmed, lower-cased query:
an empty trimmed query resolves to `None`; when a catalog item's lower-cased
English display name equals the query, some exactly-matching item is
returned; otherwise, when substring matches exist, a substring match with the
shortest English display name is returned; and when no item's name contains
the query, the result is `None`. -/
theorem c8_resolve_item_by_name (query : String) (items : Catalog) :
    ((stripStr (lowerStr query)).data = [] → resolve_item_by_name query items = none) ∧
    ((stripStr (lowerStr query)).data ≠ [] →
      (∃ ip ∈ items, lowerStr (nameGet (ip : String × Item).2.name "en" "") =
        stripStr (lowerStr query)) →
      ∃ it, resolve_item_by_name query items = some it ∧
        lowerStr (nameGet it.name "en" "") = stripStr (lowerStr query)) ∧
    ((stripStr (lowerStr query)).data ≠ [] →
      (¬ ∃ ip ∈ items, lowerStr (nameGet (ip : String × Item).2.name "en" "") =
        stripStr (lowerStr query)) →
      (∃ ip ∈ items, strHas (stripStr (lowerStr query)).data
        (lowerStr (nameGet (ip : String × Item).2.name "en" "")).data = true) →
      ∃ it, resolve_item_by_name query items = some it ∧
        strHas (stripStr (lowerStr query)).data
          (lowerStr (nameGet it.name "en" "")).data = true ∧
        ∀ ip ∈ items, strHas (stripStr (lowerStr query)).data
          (lowerStr (nameGet (ip : String × Item).2.name "en" "")).data = true →
          (nameGet it.name "en" "").length ≤
            (nameGet (ip : String × Item).2.name "en" "").length) ∧
    ((¬ ∃ ip ∈ items, strHas (stripStr (lowerStr query)).data
        (lowerStr (nameGet (ip : String × Item).2.name "en" "")).data = true) →
      resolve_item_by_name query items = none) := by
  refine ⟨?_, ?_, ?_, ?_⟩
  · intro hq
    unfold resolve_item_by_name
    rw [if_pos hq]
  · rintro hq ⟨ip, hip, hex⟩
    unfold resolve_item_by_name
    rw [if_neg hq]
    have hsome : (items.find? (fun p =>
        lowerStr (nameGet p.2.name "en" "") == stripStr (lowerStr query))).isSome = true :=
      List.find?_isSome.2 ⟨ip, hip, beq_iff_eq.2 hex⟩
    obtain ⟨p, hp⟩ := Option.isSome_iff_exists.1 hsome
    rw [hp]
    have hpred := List.find?_some hp
    simp only [beq_iff_eq] at hpred
    exact ⟨p.2, rfl, hpred⟩
  · rintro hq hnex hsub
    unfold resolve_item_by_name
    rw [if_neg hq]
    dsimp only
    cases hf : items.find? (fun p =>
        lowerStr (nameGet p.2.name "en" "") == stripStr (lowerStr query)) with
    | some p =>
      have hpred := List.find?_some hf
      simp only [beq_iff_eq] at hpred
      exact absurd ⟨p, List.mem_of_find?_eq_some hf, hpred⟩ hnex
    | none =>
      obtain ⟨ip, hip, hhas⟩ := hsub
      have hmem : ip.2 ∈ (items.filter (fun p => strHas (stripStr (lowerStr query)).data
          (lowerStr (nameGet p.2.name "en" "")).data)).map Prod.snd :=
        List.mem_map.2 ⟨ip, List.mem_filter.2 ⟨hip, hhas⟩, rfl⟩
      set le := fun a b : Item =>
        decide ((nameGet a.name "en" "").length ≤ (nameGet b.name "en" "").length) with hle
      have hperm := pySort_perm le ((items.filter (fun p =>
        strHas (stripStr (lowerStr query)).data
          (lowerStr (nameGet p.2.name "en" "")).data)).map Prod.snd)
      have hpair := @pySort_pairwise Item le
        (fun a b => by simp only [hle, decide_eq_true_eq]; exact le_total _ _)
        (fun a b c => by simp only [hle, decide_eq_true_eq]; exact fun h1 h2 => le_trans h1 h2)
        ((items.filter (fun p => strHas (stripStr (lowerStr query)).data
          (lowerStr (nameGet p.2.name "en" "")).data)).map Prod.snd)
      cases hsort : pySort le ((items.filter (fun p =>
          strHas (stripStr (lowerStr query)).data
            (lowerStr (nameGet p.2.name "en" "")).data)).map Prod.snd) with
      | nil =>
        rw [hsort] at hperm
        exact absurd (hperm.symm.mem_iff.1 hmem) (List.not_mem_nil ip.2)
      | cons m rest =>
        rw [hsort] at hperm hpair
        refine ⟨m, rfl, ?_, ?_⟩
        · have hm : m ∈ (items.filter (fun p => strHas (stripStr (lowerStr query)).data
              (lowerStr (nameGet p.2.name "en" "")).data)).map Prod.snd :=
            hperm.subset (List.mem_cons_self m rest)
          obtain ⟨p, hpfil, hpm⟩ := List.mem_map.1 hm
          rw [← hpm]
          exact (List.mem_filter.1 hpfil).2
        · intro jp hjp hjhas
          have hjm : jp.2 ∈ m :: rest := hperm.symm.subset
            (List.mem_map.2 ⟨jp, List.mem_filter.2 ⟨hjp, hjhas⟩, rfl⟩)
          rcases List.mem_cons.1 hjm with hjm | hjm
          · rw [hjm]
          · have := (List.pairwise_cons.1 hpair).1 jp.2 hjm
            simpa [hle] using this
  · intro hnsub
    unfold resolve_item_by_name
    by_cases hq : (stripStr (lowerStr query)).data = []
    · rw [if_pos hq]
    · rw [if_neg hq]
      have hfind : items.find? (fun p =>
          lowerStr (nameGet p.2.name "en" "") == stripStr (lowerStr query)) = none := by
        rw [List.find?_eq_none]
        intro p hp hpred
        refine hnsub ⟨p, hp, ?_⟩
        rw [beq_iff_eq.1 hpred]
        exact strHas_refl _
      rw [hfind]
      have hfil : items.filter (fun p => strHas (stripStr (lowerStr query)).data
          (lowerStr (nameGet p.2.name "en" "")).data) = [] := by
        rw [List.filter_eq_nil_iff]
        intro p hp hpred
        exact hnsub ⟨p, hp, hpred⟩
      rw [hfil]
      rfl

/-- Claim C8, witness: on the worked-example catalog, the query `e` (which is
a substring of Weapon, Mechanical Component and Metal) resolves to Metal, the
shortest matching display name. -/
theorem c8_resolve_item_by_name_witness :
    (stripStr (lowerStr "e")).data ≠ [] ∧
    ∃ it, resolve_item_by_name "e" exItems = some it ∧
      strHas (stripStr (lowerStr "e")).data
        (lowerStr (nameGet it.name "en" "")).data = true ∧
      ∀ ip ∈ exItems, strHas (stripStr (lowerStr "e")).data
        (lowerStr (nameGet (ip : String × Item).2.name "en" "")).data = true →
        (nameGet it.name "en" "").length ≤
          (nameGet (ip : String × Item).2.name "en" "").length :=
  ⟨by decide, (c8_resolve_item_by_name "e" exItems).2.2.1 (by decide)
    (by decide) (by decide)⟩

/-! ## Characterizing `find_recycle_sources` -/

theorem expandFrom_inv (items : Catalog) (cy : Int) (chain : List String) :
    ∀ (nbrs : List (String × Int)) (sources : List (String × Int × List String))
      (visited : List String) (qacc : List (String × Int)),
      (sources.map Prod.fst).Nodup →
      (∀ k ∈ sources.map Prod.fst, k ∈ visited) →
      (((expandFrom items cy chain nbrs sources visited qacc).1.map Prod.fst).Nodup ∧
        ∀ k ∈ (expandFrom items cy chain nbrs sources visited qacc).1.map Prod.fst,
          k ∈ (expandFrom items cy chain nbrs sources visited qacc).2.1) := by
  intro nbrs
  induction nbrs with
  | nil => intro sources visited qacc hnd hsub; exact ⟨hnd, hsub⟩
  | cons nb rest ih =>
    obtain ⟨source_id, qty⟩ := nb
    intro sources visited qacc hnd hsub
    by_cases hc : source_id ∈ visited ∨ alook items source_id = none
    · rw [expandFrom, if_pos hc]
      exact ih sources visited qacc hnd hsub
    · rw [expandFrom, if_neg hc]
      have hnvis : source_id ∉ visited := fun h => hc (Or.inl h)
      refine ih _ _ _ ?_ ?_
      · have : source_id ∉ sources.map Prod.fst := fun h => hnvis (hsub source_id h)
        simpa using nodup_snoc hnd this
      · intro k hk
        simp only [List.map_append, List.map_cons, List.map_nil, List.mem_append,
          List.mem_singleton] at hk
        rcases hk with hk | rfl
        · exact List.mem_append_left _ (hsub k hk)
        · exact List.mem_append_right _ (List.mem_singleton.2 rfl)

theorem bfsLoop_inv (items : Catalog) (rev : List (String × List (String × Int))) :
    ∀ (fuel : Nat) (queue : List (String × Int))
      (sources : List (String × Int × List String)) (visited : List String)
      (sources' : List (String × Int × List String)),
      (sources.map Prod.fst).Nodup →
      (∀ k ∈ sources.map Prod.fst, k ∈ visited) →
      bfsLoop items rev fuel queue sources visited = some sources' →
      (sources'.map Prod.fst).Nodup := by
  intro fuel
  induction fuel with
  | zero =>
    intro queue sources visited sources' hnd _ h
    cases queue with
    | nil =>
      simp only [bfsLoop, Option.some.injEq] at h
      subst h
      exact hnd
    | cons q qrest => cases h
  | succ fuel ih =>
    intro queue sources visited sources' hnd hsub h
    cases queue with
    | nil =>
      simp only [bfsLoop, Option.some.injEq] at h
      subst h
      exact hnd
    | cons q qrest =>
      obtain ⟨current_id, current_yield⟩ := q
      rw [bfsLoop] at h
      obtain ⟨hnd', hsub'⟩ := expandFrom_inv items current_yield
        (match alook sources current_id with
          | some p => p.2
          | none => []) ((alook rev current_id).getD []) sources visited [] hnd hsub
      exact ih _ _ _ _ hnd' hsub' h

/-- Dissection of a successful `find_recycle_sources` call: the result list is
either empty (unresolved target) or the sort of the stash-filtered rows built
from a BFS `sources` map with pairwise-distinct keys. -/
theorem find_recycle_sources_some (fuel : Nat) (query : String) (stash : List StashItem)
    (items : Catalog) (tgt : Option Item) (results : List RecycleSource)
    (h : find_recycle_sources fuel query stash items = some (tgt, results)) :
    results = [] ∨
    ∃ sources : List (String × Int × List String),
      (sources.map Prod.fst).Nodup ∧
      results = pySort (fun a b => decide (b.total_yield ≤ a.total_yield))
        (sources.filterMap (fun src =>
          match alook (stashDict stash) src.1 with
          | none => none
          | some si =>
            match alook items src.1 with
            | none => none
            | some it =>
              some { item_id := src.1, name := nameGet it.name "en" si.name,
                     quantity := si.quantity, yield_per_unit := src.2.1,
                     total_yield := src.2.1 * si.quantity,
                     depth := src.2.2.length - 1, chain := src.2.2 })) := by
  unfold find_recycle_sources at h
  cases hres : resolve_item_by_name query items with
  | none =>
    rw [hres] at h
    simp only [Option.some.injEq, Prod.mk.injEq] at h
    exact Or.inl h.2.symm
  | some target =>
    rw [hres] at h
    dsimp only at h
    cases hbfs : bfsLoop items (build_reverse_recycle_map items) fuel
        (expandFrom items 1 [nameGet target.name "en" target.id]
          ((alook (build_reverse_recycle_map items) target.id).getD [])
          [] [target.id] []).2.2
        (expandFrom items 1 [nameGet target.name "en" target.id]
          ((alook (build_reverse_recycle_map items) target.id).getD [])
          [] [target.id] []).1
        (expandFrom items 1 [nameGet target.name "en" target.id]
          ((alook (build_reverse_recycle_map items) target.id).getD [])
          [] [target.id] []).2.1 with
    | none => rw [hbfs] at h; cases h
    | some sources =>
      rw [hbfs] at h
      simp only [Option.some.injEq, Prod.mk.injEq] at h
      obtain ⟨s0nd, s0sub⟩ := expandFrom_inv items 1 [nameGet target.name "en" target.id]
        ((alook (build_reverse_recycle_map items) target.id).getD []) [] [target.id] []
        (by simp) (by simp)
      refine Or.inr ⟨sources, bfsLoop_inv items _ fuel _ _ _ sources s0nd s0sub hbfs, h.2.symm⟩

theorem sourceRow_prop {stash : List StashItem} {items : Catalog}
    {src : String × Int × List String} {r : RecycleSource}
    (h : (match alook (stashDict stash) src.1 with
      | none => none
      | some si =>
        match alook items src.1 with
        | none => none
        | some it =>
          some { item_id := src.1, name := nameGet it.name "en" si.name,
                 quantity := si.quantity, yield_per_unit := src.2.1,
                 total_yield := src.2.1 * si.quantity,
                 depth := src.2.2.length - 1,
                 chain := src.2.2 : RecycleSource }) = some r) :
    r.item_id = src.1 ∧ ∃ si, alook (stashDict stash) src.1 = some si ∧
      r.quantity = si.quantity ∧ r.total_yield = r.yield_per_unit * si.quantity ∧
      r.depth = r.chain.length - 1 := by
  cases hsi : alook (stashDict stash) src.1 with
  | none => rw [hsi] at h; cases h
  | some si =>
    rw [hsi] at h
    cases hit : alook items src.1 with
    | none => rw [hit] at h; cases h
    | some it =>
      rw [hit] at h
      injection h with h1
      subst h1
      exact ⟨rfl, si, rfl, rfl, rfl, rfl⟩

theorem filterMap_keys_sublist {γ : Type} (f : String × γ → Option RecycleSource)
    (hf : ∀ p r, f p = some r → r.item_id = p.1) :
    ∀ l : List (String × γ),
      ((l.filterMap f).map (fun r => r.item_id)).Sublist (l.map Prod.fst) := by
  intro l
  induction l with
  | nil => simp
  | cons p rest ih =>
    rw [List.filterMap_cons]
    cases hp : f p with
    | none =>
      rw [List.map_cons]
      exact ih.cons _
    | some r =>
      rw [List.map_cons, List.map_cons, hf p r hp]
      exact ih.cons₂ _

theorem alook_dictSet {β : Type} (d : List (String × β)) (k : String) (v : β)
    (key : String) :
    alook (dictSet d k v) key = if k = key then some v else alook d key := by
  induction d with
  | nil =>
    by_cases h : k = key <;> simp [dictSet, alook, h]
  | cons p rest ih =>
    obtain ⟨k', w⟩ := p
    by_cases h : k' = k
    · subst h
      by_cases h2 : k' = key <;> simp [dictSet, alook, h2]
    · by_cases h2 : k' = key
      · subst h2
        have : ¬ k = k' := fun hc => h hc.symm
        simp [dictSet, alook, h, this]
      · simp [dictSet, alook, h, h2, ih]

theorem stashDict_last_aux :
    ∀ (stash : List StashItem) (d : List (String × StashItem)) (id : String),
      alook (stash.foldl (fun d s => dictSet d s.item_id s) d) id =
        (stash.reverse.find? (fun s => s.item_id == id)).or (alook d id) := by
  intro stash
  induction stash with
  | nil => intro d id; simp
  | cons s rest ih =>
    intro d id
    rw [List.foldl_cons, ih, List.reverse_cons, List.find?_append]
    cases hf : rest.reverse.find? (fun s => s.item_id == id) with
    | some t => simp [Option.or]
    | none =>
      simp only [Option.or, alook_dictSet]
      by_cases hp : s.item_id = id
      · simp [List.find?, hp]
      · have hb : (s.item_id == id) = false := beq_eq_false_iff_ne.2 hp
        simp [List.find?, hp, hb]

/-- Python's `{s.item_id: s for s in stash}[id]`: the **last** stash entry
with that id wins. -/
theorem stashDict_last (stash : List StashItem) (id : String) :
    alook (stashDict stash) id = stash.reverse.find? (fun s => s.item_id == id) := by
  unfold stashDict
  rw [stashDict_last_aux stash [] id]
  simp [alook]

/-! ## Concrete inputs for the source-finder claims -/

def sfItems : Catalog :=
  [ ("top", { id := "top", name := [("en", "Top")], value := 0,
              recycles_into := [("mid", 2)] }),
    ("mid", { id := "mid", name := [("en", "Mid")], value := 0,
              recycles_into := [("low", 4)] }),
    ("low", { id := "low", name := [("en", "Low")], value := 0,
              recycles_into := [("base", 3)] }),
    ("base", { id := "base", name := [("en", "Base Mat")], value := 0,
               recycles_into := [] }) ]

def sfStash : List StashItem :=
  [{ item_id := "top", name := "Top", quantity := 1, slot_index := 0 }]

/-- Two stash stacks with the same id; the second (last) one holds 7 units. -/
def dupStash : List StashItem :=
  [{ item_id := "top", name := "Top", quantity := 2, slot_index := 0 },
   { item_id := "top", name := "Top", quantity := 7, slot_index := 1 }]

def sfBase : Item :=
  { id := "base", name := [("en", "Base Mat")], value := 0, recycles_into := [] }

def sfSource : RecycleSource :=
  { item_id := "top", name := "Top", quantity := 1, yield_per_unit := 24,
    total_yield := 24, depth := 3, chain := ["Top", "Mid", "Low", "Base Mat"] }

def dupSource : RecycleSource :=
  { item_id := "top", name := "Top", quantity := 7, yield_per_unit := 24,
    total_yield := 168, depth := 3, chain := ["Top", "Mid", "Low", "Base Mat"] }

/-- Claim C7: every result of `find_recycle_sources` refers to a stash-held
producer, with `total_yield = yield_per_unit * owned quantity` and
`depth = chain length - 1`, sorted descending by `total_yield`; and on the
spec's worked chain top→mid→low→base with per-unit yields 2, 4, 3 and one
`top` in the stash, querying `Base Mat` yields the single source with
`yield_per_unit = 24`, `depth = 3` and chain `[Top, Mid, Low, Base Mat]`. -/
theorem c7_find_recycle_sources :
    (∀ (fuel : Nat) (query : String) (stash : List StashItem) (items : Catalog)
        (tgt : Option Item) (results : List RecycleSource),
      find_recycle_sources fuel query stash items = some (tgt, results) →
      results.Pairwise (fun a b => b.total_yield ≤ a.total_yield) ∧
      ∀ r ∈ results, ∃ si, alook (stashDict stash) r.item_id = some si ∧
        r.quantity = si.quantity ∧ r.total_yield = r.yield_per_unit * si.quantity ∧
        r.depth = r.chain.length - 1) ∧
    find_recycle_sources 10 "Base Mat" sfStash sfItems = some (some sfBase, [sfSource]) := by
  constructor
  · intro fuel query stash items tgt results h
    rcases find_recycle_sources_some fuel query stash items tgt results h with rfl | ⟨sources, _, rfl⟩
    · exact ⟨List.Pairwise.nil, by simp⟩
    · constructor
      · refine (pySort_pairwise ?_ ?_ _).imp (fun h' => of_decide_eq_true h')
        · intro a b
          simp only [decide_eq_true_eq]
          exact le_total _ _
        · intro a b c
          simp only [decide_eq_true_eq]
          exact fun h1 h2 => le_trans h2 h1
      · intro r hr
        have hr' := (pySort_perm _ _).subset hr
        obtain ⟨src, _, hrow⟩ := List.mem_filterMap.1 hr'
        obtain ⟨hid, si, hsi, hq, ht, hd⟩ := sourceRow_prop hrow
        exact ⟨si, by rw [hid]; exact hsi, hq, ht, hd⟩
  · decide

/-- Claim C7, witness: the general clause instantiated on the worked chain. -/
theorem c7_find_recycle_sources_witness :
    [sfSource].Pairwise (fun a b => b.total_yield ≤ a.total_yield) ∧
    ∀ r ∈ [sfSource], ∃ si, alook (stashDict sfStash) r.item_id = some si ∧
      r.quantity = si.quantity ∧ r.total_yield = r.yield_per_unit * si.quantity ∧
      r.depth = r.chain.length - 1 :=
  c7_find_recycle_sources.1 10 "Base Mat" sfStash sfItems (some sfBase) [sfSource]
    (by decide)

/-- Claim C10: when the stash has several entries with the same item id, the
result of `find_recycle_sources` has at most one row per item id, and its
quantity (hence `total_yield`) comes from the **last** stash entry with that
id — the dict comprehension `{s.item_id: s for s in stash}` keeps the last
binding, as `stashDict_last`-style conjunct two states; on the worked chain
with stacks of 2 and then 7 `top`, the single result has quantity 7 and
`total_yield = 168`. -/
theorem c10_duplicate_stash_entries :
    (∀ (fuel : Nat) (query : String) (stash : List StashItem) (items : Catalog)
        (tgt : Option Item) (results : List RecycleSource),
      find_recycle_sources fuel query stash items = some (tgt, results) →
      (results.map (fun r => r.item_id)).Nodup ∧
      ∀ r ∈ results, ∃ si, alook (stashDict stash) r.item_id = some si ∧
        r.quantity = si.quantity ∧ r.total_yield = r.yield_per_unit * si.quantity) ∧
    (∀ (stash : List StashItem) (id : String),
      alook (stashDict stash) id = stash.reverse.find? (fun s => s.item_id == id)) ∧
    find_recycle_sources 10 "Base Mat" dupStash sfItems =
      some (some sfBase, [dupSource]) := by
  refine ⟨?_, stashDict_last, by decide⟩
  intro fuel query stash items tgt results h
  rcases find_recycle_sources_some fuel query stash items tgt results h with rfl | ⟨sources, hnd, rfl⟩
  · exact ⟨List.nodup_nil, by simp⟩
  · constructor
    · have hsub := filterMap_keys_sublist
        (fun src => match alook (stashDict stash) src.1 with
          | none => none
          | some si =>
            match alook items src.1 with
            | none => none
            | some it =>
              some { item_id := src.1, name := nameGet it.name "en" si.name,
                     quantity := si.quantity, yield_per_unit := src.2.1,
                     total_yield := src.2.1 * si.quantity,
                     depth := src.2.2.length - 1, chain := src.2.2 })
        (fun p r hr => (sourceRow_prop hr).1) sources
      have hnodup := hnd.sublist hsub
      exact (((pySort_perm _ _).map (fun r : RecycleSource => r.item_id)).nodup_iff).2 hnodup
    · intro r hr
      have hr' := (pySort_perm _ _).subset hr
      obtain ⟨src, _, hrow⟩ := List.mem_filterMap.1 hr'
      obtain ⟨hid, si, hsi, hq, ht, _⟩ := sourceRow_prop hrow
      exact ⟨si, by rw [hid]; exact hsi, hq, ht⟩

/-- Claim C10, witness: the general clause instantiated on the duplicate-stash
example. -/
theorem c10_duplicate_stash_entries_witness :
    ([dupSource].map (fun r => r.item_id)).Nodup ∧
    ∀ r ∈ [dupSource], ∃ si, alook (stashDict dupStash) r.item_id = some si ∧
      r.quantity = si.quantity ∧ r.total_yield = r.yield_per_unit * si.quantity :=
  c10_duplicate_stash_entries.1 10 "Base Mat" dupStash sfItems (some sfBase) [dupSource]
    (by decide)
